import Mathlib

/-!
# Decision Helper: ranked-choice (instant-runoff) election

A shallow embedding of `Decision Helper/decisionHelper.cpp` and theorems about
its round tabulation (`tallyRoundVotes`), round resolution
(`processRoundResults`) and the driver loop of `main`.

Conventions of the embedding:

* in-place mutation becomes explicit state passing: a function that mutates
  the ballots or the candidate table returns the new value;
* undefined behaviour and uncaught exceptions become `Except.error`:
  dereferencing the null pointer of a failed lookup is
  `Failure.nullDereference`, `std::array::at` out of range is
  `Failure.outOfRange`;
* `int` counts are `Nat` (a count never exceeds the number of ballots);
* the `float` threshold is modelled exactly: `intToFloat` is the
  round-to-nearest-even conversion of an `int` to IEEE binary32.
-/

namespace DecisionHelper

/-! ## Failures -/

/-- The ways in which the program can stop without a result. `outOfFuel` is
not a behaviour of the program: it is returned by the bounded loops of the
embedding when their fuel is used up. -/
inductive Failure where
  | nullDereference
  | outOfRange
  | outOfFuel
  deriving DecidableEq

/-! ## `HashTable.hpp` and `LinkedList.hpp` -/

/-- Modelled from the spec: `LinkedList.hpp` is not part of the sources. The
spec describes the ballot store as "the ordered collection of ballots",
enumerated "in load order": a `LinkedList<T>` is the list of its elements,
`pushBack` appends, `size` is the length, and the iterator visits the elements
first to last. -/
abbrev LinkedList (α : Type) := List α

/-- Modelled from the spec: `HashTable.hpp` is not part of the sources. The
spec describes it as an order-preserving table, to be read as "an explicit
insertion-ordered map (array of entries plus an identifier-to-index lookup)",
enumerated in the order in which the keys were first added. The table is the
list of its entries in that order; its iterator (`generateIterator`,
`hasNext`, `current`, `next`) visits them first to last, `hasNext` holding as
long as there is a current entry. -/
structure HashTable (α : Type) where
  entries : List (String × α)
  deriving DecidableEq

namespace HashTable

variable {α : Type}

/-- Modelled from the spec: the empty table of the declaration `HashTable<T> t;`. -/
def empty : HashTable α := ⟨[]⟩

/-- Modelled from the spec: the keys in enumeration order. -/
def keys (t : HashTable α) : List String := t.entries.map Prod.fst

/-- Modelled from the spec: insertion into the entries of the insertion-ordered
map. A key that is present keeps its place and takes the new value, a new key
goes to the end. -/
def insertEntry (k : String) (v : α) : List (String × α) → List (String × α)
  | [] => [(k, v)]
  | e :: es => if e.1 = k then (k, v) :: es else e :: insertEntry k v es

/-- Modelled from the spec: `add(key, value)` of the insertion-ordered map. -/
def add (t : HashTable α) (k : String) (v : α) : HashTable α :=
  ⟨insertEntry k v t.entries⟩

/-- Modelled from the spec: the value stored under a key in a list of entries
(the first match). -/
def lookup (k : String) : List (String × α) → Option α
  | [] => none
  | e :: es => if e.1 = k then some e.2 else lookup k es

/-- Modelled from the spec: `get(key)` returns a pointer to the value stored
under the key, and the null pointer (`none`) when the key is absent ("the
null-dereference risk present when a lookup fails"). -/
def get (t : HashTable α) (k : String) : Option α := lookup k t.entries

/-- Modelled from the spec: a write through the pointer returned by `get`, on
the list of entries. -/
def modifyEntry (k : String) (f : α → α) : List (String × α) → List (String × α)
  | [] => []
  | e :: es => if e.1 = k then (e.1, f e.2) :: es else e :: modifyEntry k f es

/-- Modelled from the spec: the table after a write `*t.get(k) = f(*t.get(k))`
through the pointer returned by `get`. -/
def modify (t : HashTable α) (k : String) (f : α → α) : HashTable α :=
  ⟨modifyEntry k f t.entries⟩

end HashTable

/-! ## `Candidate` and `Ballot` -/

/-- The class `Candidate`. -/
structure Candidate where
  id : String
  name : String
  eliminated : Bool
  deriving DecidableEq

namespace Candidate

/-- `Candidate::getEliminated`. -/
def getEliminated (c : Candidate) : Bool := c.eliminated

/-- `Candidate::getName`. -/
def getName (c : Candidate) : String := c.name

/-- `Candidate::setEliminated`: `eliminated = true`. -/
def setEliminated (c : Candidate) : Candidate := { c with eliminated := true }

end Candidate

/-- The class `Ballot`: `array<string, 3> candidateRanks`, filled by the
constructor `Ballot(h, s, t)`. -/
structure Ballot where
  h : String
  s : String
  t : String
  deriving DecidableEq

namespace Ballot

/-- The bounds-checked `candidateRanks.at(i)`: it throws `std::out_of_range`
for an index that is not 0, 1 or 2. -/
def candidateRanksAt (b : Ballot) : Nat → Except Failure String
  | 0 => .ok b.h
  | 1 => .ok b.s
  | 2 => .ok b.t
  | _ => .error .outOfRange

/-- `Ballot::getHighestRankedCandidate`: `candidateRanks.at(0)`. -/
def getHighestRankedCandidate (b : Ballot) : String := b.h

/-- `Ballot::setHighestRankedCandidate`:
`candidateRanks.at(0) = candidateRanks.at(value)`. -/
def setHighestRankedCandidate (b : Ballot) (value : Nat) : Except Failure Ballot :=
  match b.candidateRanksAt value with
  | .error e => .error e
  | .ok v => .ok { b with h := v }

end Ballot

/-! ## The `float` majority threshold -/

/-- Number of low bits that do not fit the 24-bit significand of a binary32:
the least `e` with `n / 2 ^ e < 2 ^ 24` (the first argument bounds the
recursion; `n` itself is always enough). -/
def floatShift : Nat → Nat → Nat
  | 0, _ => 0
  | fuel + 1, n => if n < 2 ^ 24 then 0 else floatShift fuel (n / 2) + 1

/-- The value of `float(n)` for a non-negative `int` `n`: `n` rounded to the
nearest number with a 24-bit significand, ties to the even significand. The
result is again an integer. -/
def intToFloat (n : Nat) : Nat :=
  let e := floatShift n n
  let q := n / 2 ^ e
  let r := n % 2 ^ e
  if 2 ^ e < 2 * r ∨ (2 * r = 2 ^ e ∧ q % 2 = 1) then (q + 1) * 2 ^ e else q * 2 ^ e

/-- A `float` of the program. Every `float` it computes is a non-negative
multiple of one half, stored here as twice its value. -/
structure FloatHalves where
  twice : Nat
  deriving DecidableEq

/-- The expression `float(totalBallots)/2` of `main`: the conversion rounds,
the division by two is exact. -/
def halfOf (totalBallots : Nat) : FloatHalves := ⟨intToFloat totalBallots⟩

/-- The comparison `votes > halfOfVotes` between an `int` and a `float`: the
`int` is converted to `float` first. -/
def exceedsHalf (votes : Nat) (halfOfVotes : FloatHalves) : Bool :=
  decide (halfOfVotes.twice < 2 * intToFloat votes)

/-! ## `tallyRoundVotes` -/

/-- The first loop of `tallyRoundVotes`: every candidate that is not
eliminated is added to the tally with 0 votes, in the order of the candidate
table. -/
def seedTally (candidates : HashTable Candidate) : HashTable Nat :=
  candidates.entries.foldl
    (fun tally e => if e.2.getEliminated then tally else tally.add e.1 0) HashTable.empty

/-- The `while` loop of `tallyRoundVotes` on one ballot, entered with the
given `index`: as long as the candidate at rank position 0 is eliminated,
position 0 is overwritten by position `index` and `index` grows. -/
def skipEliminated (candidates : HashTable Candidate) : Nat → Nat → Ballot → Except Failure Ballot
  | 0, _, _ => .error .outOfFuel
  | fuel + 1, index, b =>
    match candidates.get b.getHighestRankedCandidate with
    | none => .error .nullDereference
    | some c =>
      if c.getEliminated then
        match b.setHighestRankedCandidate index with
        | .error e => .error e
        | .ok b' => skipEliminated candidates fuel (index + 1) b'
      else .ok b

/-- The second loop of `tallyRoundVotes`: each ballot, in list order, is
advanced past eliminated candidates (starting with `index = 1`) and the count
of its highest ranked candidate is incremented through the pointer returned
by `talliedVotesHT.get`. The ballots are returned as the loop leaves them. -/
def tallyBallots (candidates : HashTable Candidate) :
    List Ballot → HashTable Nat → Except Failure (HashTable Nat × List Ballot)
  | [], tally => .ok (tally, [])
  | b :: rest, tally =>
    match skipEliminated candidates 4 1 b with
    | .error e => .error e
    | .ok b' =>
      match tally.get b'.getHighestRankedCandidate with
      | none => .error .nullDereference
      | some _ =>
        match tallyBallots candidates rest
            (tally.modify b'.getHighestRankedCandidate (fun n => n + 1)) with
        | .error e => .error e
        | .ok (tally', rest') => .ok (tally', b' :: rest')

/-- The function `tallyRoundVotes(ballots, candidates)`: the tally of the
round together with the ballots as mutated by the round. -/
def tallyRoundVotes (ballots : LinkedList Ballot) (candidates : HashTable Candidate) :
    Except Failure (HashTable Nat × List Ballot) :=
  tallyBallots candidates ballots (seedTally candidates)

/-! ## `processRoundResults` -/

/-- The `while` loop of `processRoundResults` over the entries of the tally
that the iterator has not visited yet; it carries `loser` and `win`. The loop
stops at the end of the table or at an entry whose candidate is eliminated. -/
def scanTally (talliedVotes : HashTable Nat) (candidates : HashTable Candidate)
    (halfOfVotes : FloatHalves) :
    List (String × Nat) → String → String → Except Failure (String × String)
  | [], loser, win => .ok (loser, win)
  | cur :: rest, loser, win =>
    match candidates.get cur.1 with
    | none => .error .nullDereference
    | some c =>
      if c.getEliminated then .ok (loser, win)
      else
        match talliedVotes.get cur.1 with
        | none => .error .nullDereference
        | some votes =>
          if exceedsHalf votes halfOfVotes then
            scanTally talliedVotes candidates halfOfVotes rest loser c.getName
          else
            match talliedVotes.get loser with
            | none => .error .nullDereference
            | some loserVotes =>
              if cur.2 < loserVotes then
                scanTally talliedVotes candidates halfOfVotes rest cur.1 win
              else
                scanTally talliedVotes candidates halfOfVotes rest loser win

/-- The function `processRoundResults(talliedVotes, candidates, halfOfVotes,
win)`: the candidate table and the string `win` as the call leaves them. The
first key of the tally is read without a check, and the loser is eliminated
whether or not a winner was found. -/
def processRoundResults (talliedVotes : HashTable Nat) (candidates : HashTable Candidate)
    (halfOfVotes : FloatHalves) (win : String) : Except Failure (HashTable Candidate × String) :=
  match talliedVotes.entries with
  | [] => .error .nullDereference
  | first :: _ =>
    match scanTally talliedVotes candidates halfOfVotes talliedVotes.entries first.1 win with
    | .error e => .error e
    | .ok (loser, win') =>
      match candidates.get loser with
      | none => .error .nullDereference
      | some _ => .ok (candidates.modify loser Candidate.setEliminated, win')

/-! ## The election loop of `main` -/

/-- How a run of the election loop ends. -/
inductive RunResult where
  /-- The loop was left with a non-empty `winner` after `rounds` rounds; the
  tallies of the rounds are listed first round first. -/
  | finished (winner : String) (rounds : Nat) (candidates : HashTable Candidate)
      (tallies : List (HashTable Nat))
  /-- The program stopped in round `round`. -/
  | failed (f : Failure) (round : Nat)
  /-- The bound of the embedding was reached (not a behaviour of the program). -/
  | outOfFuel
  deriving DecidableEq

/-- The loop `while(winner.empty())` of `main`, at most `fuel` rounds of it:
each round tallies the votes and processes the result. -/
def electionLoop (halfOfVotes : FloatHalves) :
    Nat → List Ballot → HashTable Candidate → Nat → String → List (HashTable Nat) → RunResult
  | 0, _, candidates, roundNum, winner, tallies =>
    if winner = "" then .outOfFuel else .finished winner roundNum candidates tallies
  | fuel + 1, ballots, candidates, roundNum, winner, tallies =>
    if winner = "" then
      match tallyRoundVotes ballots candidates with
      | .error e => .failed e (roundNum + 1)
      | .ok (talliedVotes, ballots') =>
        match processRoundResults talliedVotes candidates halfOfVotes winner with
        | .error e => .failed e (roundNum + 1)
        | .ok (candidates', winner') =>
          electionLoop halfOfVotes fuel ballots' candidates' (roundNum + 1) winner'
            (tallies ++ [talliedVotes])
    else .finished winner roundNum candidates tallies

/-- The election of `main` from the loaded tables on: `totalBallots` is the
size of the ballot list, `halfOfVotes` is `float(totalBallots)/2`, `roundNum`
starts at 0 and `winner` is empty. -/
def runElection (fuel : Nat) (candidatesHT : HashTable Candidate)
    (ballotsList : LinkedList Ballot) :
    RunResult :=
  electionLoop (halfOf ballotsList.length) fuel ballotsList candidatesHT 0 "" []

/-! ## Vocabulary of the specification -/

/-- A candidate id is active in the candidate table: it is registered and
its candidate is not eliminated. -/
def isActive (candidates : HashTable Candidate) (k : String) : Bool :=
  match candidates.get k with
  | some c => !c.eliminated
  | none => false

/-- A candidate id is registered and its candidate is eliminated. -/
def isEliminated (candidates : HashTable Candidate) (k : String) : Bool :=
  match candidates.get k with
  | some c => c.eliminated
  | none => false

/-- The first candidate of a ballot, in stored rank order (positions 0, 1,
2), that is registered and not eliminated. -/
def firstActive (candidates : HashTable Candidate) (b : Ballot) : Option String :=
  [b.h, b.s, b.t].find? (isActive candidates)

/-- The number of exhausted ballots: the ballots that have no ranked candidate
to be counted for. -/
def exhaustedCount (candidates : HashTable Candidate) (ballots : List Ballot) : Nat :=
  ballots.countP (fun b => firstActive candidates b = none)

/-- The sum of the per-candidate counts of a tally. -/
def totalVotes (tally : HashTable Nat) : Nat := (tally.entries.map Prod.snd).sum

/-- The number of candidates of the table that are not eliminated. -/
def activeCount (candidates : HashTable Candidate) : Nat :=
  candidates.entries.countP (fun e => !e.2.eliminated)

/-- The three ranked ids of a ballot are registered. -/
def allRegistered (candidates : HashTable Candidate) (b : Ballot) : Prop :=
  (candidates.get b.h).isSome = true ∧ (candidates.get b.s).isSome = true ∧
    (candidates.get b.t).isSome = true

instance (candidates : HashTable Candidate) (b : Ballot) : Decidable (allRegistered candidates b) := by
  unfold allRegistered; infer_instance

/-- The three ranked candidates of a ballot are all eliminated. -/
def allEliminated (candidates : HashTable Candidate) (b : Ballot) : Prop :=
  isEliminated candidates b.h = true ∧ isEliminated candidates b.s = true ∧
    isEliminated candidates b.t = true

instance (candidates : HashTable Candidate) (b : Ballot) : Decidable (allEliminated candidates b) := by
  unfold allEliminated; infer_instance

/-- The relation between a ballot before and after a completed round: rank
position 0 holds the first active candidate, positions 1 and 2 are kept. -/
def Advanced (candidates : HashTable Candidate) (b b' : Ballot) : Prop :=
  firstActive candidates b = some b'.h ∧ b'.s = b.s ∧ b'.t = b.t

/-- The entries with which `seedTally` fills the tally when the ids of the
candidate table are distinct. -/
def seedEntries (es : List (String × Candidate)) : List (String × Nat) :=
  (es.filter (fun e => !e.2.eliminated)).map (fun e => (e.1, 0))

/-- A tally as `tallyRoundVotes` builds it for a candidate table with distinct
ids: its keys are distinct and each of them is an active candidate. -/
def TallyFor (candidates : HashTable Candidate) (t : HashTable Nat) : Prop :=
  t.keys.Nodup ∧ ∀ k ∈ t.keys, isActive candidates k = true

/-- The effect of one round on the candidate table: one candidate that was
not eliminated is now eliminated, nothing else is changed. -/
def EliminatesOne (candidates candidates' : HashTable Candidate) (loser : String) : Prop :=
  ∃ pre c post, candidates.entries = pre ++ (loser, c) :: post ∧ c.eliminated = false ∧
    candidates'.entries = pre ++ (loser, { c with eliminated := true }) :: post

/-! ## Example elections -/

/-- The candidate table of the scenario: A, B, C registered in that order. -/
def scenarioCandidates : HashTable Candidate :=
  ⟨[("A", ⟨"A", "A", false⟩), ("B", ⟨"B", "B", false⟩), ("C", ⟨"C", "C", false⟩)]⟩

/-- The five ballots of the scenario. -/
def scenarioBallots : List Ballot :=
  [⟨"A", "B", "C"⟩, ⟨"A", "B", "C"⟩, ⟨"B", "A", "C"⟩, ⟨"C", "B", "A"⟩, ⟨"C", "B", "A"⟩]

/-- The candidate table of the scenario after round 1: B is eliminated. -/
def scenarioCandidates2 : HashTable Candidate :=
  ⟨[("A", ⟨"A", "A", false⟩), ("B", ⟨"B", "B", true⟩), ("C", ⟨"C", "C", false⟩)]⟩

/-- The candidate table of the scenario when the run ends. -/
def scenarioCandidates3 : HashTable Candidate :=
  ⟨[("A", ⟨"A", "A", false⟩), ("B", ⟨"B", "B", true⟩), ("C", ⟨"C", "C", true⟩)]⟩

/-- The ballots of the scenario as round 2 leaves them: the third ballot has
moved on from B to A. -/
def scenarioBallots2 : List Ballot :=
  [⟨"A", "B", "C"⟩, ⟨"A", "B", "C"⟩, ⟨"A", "A", "C"⟩, ⟨"C", "B", "A"⟩, ⟨"C", "B", "A"⟩]

/-- The tally of round 1 of the scenario. -/
def scenarioTally1 : HashTable Nat := ⟨[("A", 2), ("B", 1), ("C", 2)]⟩

/-- The tally of round 2 of the scenario. -/
def scenarioTally2 : HashTable Nat := ⟨[("A", 3), ("C", 2)]⟩

/-- The candidate table of the exhausted-ballot example: A is eliminated. -/
def exhaustedCandidates : HashTable Candidate :=
  ⟨[("A", ⟨"A", "Ann", true⟩), ("B", ⟨"B", "Bob", false⟩)]⟩

/-- The ballots of the exhausted-ballot example: the first ranks A three
times. -/
def exhaustedBallots : List Ballot := [⟨"A", "A", "A"⟩, ⟨"B", "B", "B"⟩]

/-- A candidate table with the two candidates A and B, neither eliminated. -/
def twoCandidates : HashTable Candidate :=
  ⟨[("A", ⟨"A", "Ann", false⟩), ("B", ⟨"B", "Bob", false⟩)]⟩

/-- Ballots of the large election: `n` ballots for A followed by `m` for B. -/
def largeBallotsOf (n m : Nat) : List Ballot :=
  List.replicate n ⟨"A", "B", "B"⟩ ++ List.replicate m ⟨"B", "A", "A"⟩

/-- The ballots of the large election: 8388610 ballots for A and 8388609 for
B, 16777219 in all. -/
def largeBallots : List Ballot := largeBallotsOf 8388610 8388609

/-- The candidate table of the empty-name example: the candidate A has the
empty string as name. -/
def unnamedCandidates : HashTable Candidate :=
  ⟨[("A", ⟨"A", "", false⟩), ("B", ⟨"B", "Bob", false⟩)]⟩

/-- The ballots of the empty-name example: three ballots for A. -/
def unnamedBallots : List Ballot := [⟨"A", "B", "B"⟩, ⟨"A", "B", "B"⟩, ⟨"A", "B", "B"⟩]

/-- The ballots of the tie example: one ballot for A and one for B, each with
the other candidate as second choice. -/
def tieBallots : List Ballot := [⟨"A", "B", "B"⟩, ⟨"B", "A", "A"⟩]

/-- The candidate table of the tie example when the run ends: both candidates
are eliminated. -/
def tieCandidatesEnd : HashTable Candidate :=
  ⟨[("A", ⟨"A", "Ann", true⟩), ("B", ⟨"B", "Bob", true⟩)]⟩

/-- A candidate table with the single candidate A, not eliminated. -/
def oneCandidate : HashTable Candidate := ⟨[("A", ⟨"A", "Ann", false⟩)]⟩

/-! ## `populateBallotsListFromFile` -/

/-- One `<vote rank="...">id</vote>` element of the ballots document as the
loader reads it: `vote.attribute("rank").as_int()` and `vote.child_value()`. -/
structure Vote where
  rank : Int
  value : String
  deriving DecidableEq

/-- The inner loop of `populateBallotsListFromFile` over the `vote` children of
one `ballot` element, followed by the construction `Ballot newBallot(id1, id2,
id3)`: a vote of rank 1, 2 or 3 overwrites `id1`, `id2` or `id3`, any other
vote is skipped. -/
def readVotes : List Vote → String → String → String → Ballot
  | [], id1, id2, id3 => ⟨id1, id2, id3⟩
  | vote :: votes, id1, id2, id3 =>
    if vote.rank = 1 then readVotes votes vote.value id2 id3
    else if vote.rank = 2 then readVotes votes id1 vote.value id3
    else if vote.rank = 3 then readVotes votes id1 id2 vote.value
    else readVotes votes id1 id2 id3

/-- The function `populateBallotsListFromFile`, from the parsed document on:
the argument lists the `ballot` elements of the document, each with its `vote`
children. For every `ballot` element the strings `id1`, `id2`, `id3` start
empty, the votes are read, and the new ballot is pushed to the back of the
list. -/
def populateBallotsListFromFile (xmlBallots : List (List Vote)) : LinkedList Ballot :=
  xmlBallots.foldl (fun bList xmlBallot => bList ++ [readVotes xmlBallot "" "" ""]) []

/-- The ballots document of the unregistered-id example: the first record
ranks the id X, which no candidate has, second. -/
def unregisteredRecords : List (List Vote) :=
  [[⟨1, "A"⟩, ⟨2, "X"⟩, ⟨3, "B"⟩], [⟨1, "B"⟩, ⟨2, "A"⟩, ⟨3, "A"⟩]]

/-- The ballots document of the short-record example: the first record has
only the ranks 1 and 2. -/
def shortRecords : List (List Vote) :=
  [[⟨1, "A"⟩, ⟨2, "B"⟩], [⟨1, "B"⟩, ⟨2, "A"⟩, ⟨3, "A"⟩]]

/-! ## The in-place ballot update against a recount -/

/-- Eliminations are only added from one candidate table to the other: every
candidate that is eliminated in the first is eliminated in the second. -/
def ElimGrows (candidates candidates' : HashTable Candidate) : Prop :=
  ∀ k, isEliminated candidates k = true → isEliminated candidates' k = true

/-- What the rounds can have made of an original ballot `b`: positions 1 and
2 are untouched, and position 0 holds the original first choice, or the
second when the first is eliminated, or the third when the first two are. -/
def MovedOn (candidates : HashTable Candidate) (b b' : Ballot) : Prop :=
  b'.s = b.s ∧ b'.t = b.t ∧
    (b'.h = b.h ∨ (b'.h = b.s ∧ isEliminated candidates b.h = true) ∨
      (b'.h = b.t ∧ isEliminated candidates b.h = true ∧ isEliminated candidates b.s = true))

/-- The ballots and the candidate table at the start of a round of a run that
began with the ballots `originals`: either nothing has happened yet, or an
earlier round has tallied, mutating the ballots, and eliminations have been
added since. -/
inductive RunState (originals : List Ballot) : List Ballot → HashTable Candidate → Prop where
  | start (candidates : HashTable Candidate) : RunState originals originals candidates
  | round {ballots ballots' : List Ballot} {candidates candidates' : HashTable Candidate}
      {t : HashTable Nat} :
      RunState originals ballots candidates →
      tallyRoundVotes ballots candidates = .ok (t, ballots') →
      ElimGrows candidates candidates' →
      RunState originals ballots' candidates'

/-- The recount of the claim, from its words: every ballot gives its vote to
the first non-eliminated candidate of its original, unmodified ranking; the
tally lists the candidates that are not eliminated in the order of the
candidate table, each with the number of ballots that vote for it; there is no
tally when some ballot has no non-eliminated candidate in its ranking. -/
def recountFromOriginals (candidates : HashTable Candidate) (originals : List Ballot) :
    Option (HashTable Nat) :=
  if ∀ b ∈ originals, firstActive candidates b ≠ none then
    some ⟨(candidates.entries.filter (fun e => !e.2.eliminated)).map
      (fun e => (e.1, originals.countP (fun b => firstActive candidates b = some e.1)))⟩
  else none

/-- The ballots of the scenario with the unregistered id X as the second
choice of the third ballot. -/
def strayBallots : List Ballot :=
  [⟨"A", "B", "C"⟩, ⟨"A", "B", "C"⟩, ⟨"B", "X", "C"⟩, ⟨"C", "B", "A"⟩, ⟨"C", "B", "A"⟩]

/-! ## Lemmas on the `float` conversion -/

theorem floatShift_of_lt (fuel n : Nat) (h : n < 2 ^ 24) : floatShift fuel n = 0 := by
  cases fuel with
  | zero => rfl
  | succ f => simp only [floatShift, if_pos h]

theorem floatShift_spec_aux : ∀ fuel n, n < 2 ^ (24 + fuel) →
    n / 2 ^ (floatShift fuel n) < 2 ^ 24 ∧
      (2 ^ 24 ≤ n → 1 ≤ floatShift fuel n ∧ 2 ^ 23 ≤ n / 2 ^ (floatShift fuel n)) := by
  intro fuel
  induction fuel with
  | zero =>
    intro n hn
    simp only [floatShift, pow_zero, Nat.div_one, add_zero] at hn ⊢
    exact ⟨hn, fun h => absurd hn (not_lt.2 h)⟩
  | succ fuel ih =>
    intro n hn
    by_cases h : n < 2 ^ 24
    · rw [floatShift_of_lt _ _ h, pow_zero, Nat.div_one]
      exact ⟨h, fun h' => absurd h (not_lt.2 h')⟩
    · have hn2 : n / 2 < 2 ^ (24 + fuel) := by
        apply Nat.div_lt_of_lt_mul
        have : 2 ^ (24 + (fuel + 1)) = 2 * 2 ^ (24 + fuel) := by ring
        omega
      obtain ⟨ih1, ih2⟩ := ih (n / 2) hn2
      have hdiv : n / 2 ^ (floatShift fuel (n / 2) + 1) = n / 2 / 2 ^ (floatShift fuel (n / 2)) := by
        rw [Nat.div_div_eq_div_mul, pow_succ, mul_comm]
      simp only [floatShift, h, if_false]
      rw [hdiv]
      refine ⟨ih1, fun _ => ⟨by omega, ?_⟩⟩
      by_cases h2 : 2 ^ 24 ≤ n / 2
      · exact (ih2 h2).2
      · rw [floatShift_of_lt _ _ (not_le.1 h2)]
        simp only [pow_zero, Nat.div_one]
        norm_num at h h2 ⊢
        omega

theorem floatShift_spec (n : Nat) (h : 2 ^ 24 ≤ n) :
    1 ≤ floatShift n n ∧ 2 ^ 23 ≤ n / 2 ^ (floatShift n n) ∧ n / 2 ^ (floatShift n n) < 2 ^ 24 := by
  have hn : n < 2 ^ (24 + n) :=
    lt_of_lt_of_le (Nat.lt_two_pow n) (Nat.pow_le_pow_right (by norm_num) (by omega))
  obtain ⟨h1, h2⟩ := floatShift_spec_aux n n hn
  exact ⟨(h2 h).1, (h2 h).2, h1⟩

theorem intToFloat_small (n : Nat) (h : n < 2 ^ 24) : intToFloat n = n := by
  simp [intToFloat, floatShift_of_lt n n h, Nat.mod_one]

theorem intToFloat_bounds (n : Nat) :
    n / 2 ^ (floatShift n n) * 2 ^ (floatShift n n) ≤ intToFloat n ∧
      intToFloat n ≤ (n / 2 ^ (floatShift n n) + 1) * 2 ^ (floatShift n n) := by
  unfold intToFloat
  simp only
  split
  · exact ⟨Nat.mul_le_mul_right _ (Nat.le_succ _), le_refl _⟩
  · exact ⟨le_refl _, Nat.mul_le_mul_right _ (Nat.le_succ _)⟩

/-- The rounding step of `intToFloat` on a decomposition `n = q * P + r`. -/
theorem intToFloat_eq (n : Nat) :
    intToFloat n =
      if 2 ^ (floatShift n n) < 2 * (n % 2 ^ (floatShift n n)) ∨
          (2 * (n % 2 ^ (floatShift n n)) = 2 ^ (floatShift n n) ∧
            n / 2 ^ (floatShift n n) % 2 = 1)
      then (n / 2 ^ (floatShift n n) + 1) * 2 ^ (floatShift n n)
      else n / 2 ^ (floatShift n n) * 2 ^ (floatShift n n) := rfl

theorem two_mul_intToFloat_le (c t : Nat) (h : 2 * c ≤ t) :
    2 * intToFloat c ≤ intToFloat t := by
  by_cases ht : t < 2 ^ 24
  · rw [intToFloat_small t ht, intToFloat_small c (by omega)]; exact h
  · have ht' : 2 ^ 24 ≤ t := not_lt.1 ht
    obtain ⟨et1, qt1, qt2⟩ := floatShift_spec t ht'
    obtain ⟨bt1, _⟩ := intToFloat_bounds t
    have hdt := Nat.div_add_mod t (2 ^ floatShift t t)
    have hrt := Nat.mod_lt t (Nat.pos_pow_of_pos (floatShift t t) (by norm_num : 0 < 2))
    by_cases hc : c < 2 ^ 24
    · rw [intToFloat_small c hc]
      by_cases het : floatShift t t = 1
      · rw [het] at bt1 hdt hrt
        simp only [pow_one] at bt1 hdt hrt
        omega
      · have h4 : 2 ^ 2 ≤ 2 ^ floatShift t t :=
          Nat.pow_le_pow_right (by norm_num) (by omega)
        have h5 := Nat.mul_le_mul qt1 h4
        norm_num at h5 hc
        omega
    · have hc' : 2 ^ 24 ≤ c := not_lt.1 hc
      obtain ⟨ec1, qc1, qc2⟩ := floatShift_spec c hc'
      obtain ⟨_, bc2⟩ := intToFloat_bounds c
      have hdc := Nat.div_add_mod c (2 ^ floatShift c c)
      have hrc := Nat.mod_lt c (Nat.pos_pow_of_pos (floatShift c c) (by norm_num : 0 < 2))
      -- the exponent of `t` is above that of `c`
      have hlow : 2 ^ (24 + floatShift c c) ≤ 2 * c := by
        have h1 : 2 ^ 23 * 2 ^ floatShift c c ≤ c / 2 ^ floatShift c c * 2 ^ floatShift c c :=
          Nat.mul_le_mul_right _ qc1
        have h2 : c / 2 ^ floatShift c c * 2 ^ floatShift c c ≤ c := Nat.div_mul_le_self _ _
        have h3 : 2 ^ (24 + floatShift c c) = 2 * (2 ^ 23 * 2 ^ floatShift c c) := by ring
        omega
      have hhigh : t < 2 ^ (24 + floatShift t t) := by
        have h1 : (t / 2 ^ floatShift t t + 1) * 2 ^ floatShift t t ≤ 2 ^ 24 * 2 ^ floatShift t t :=
          Nat.mul_le_mul_right _ qt2
        have h2 : t < (t / 2 ^ floatShift t t + 1) * 2 ^ floatShift t t := by
          rw [add_mul, one_mul, mul_comm]; omega
        have h3 : 2 ^ (24 + floatShift t t) = 2 ^ 24 * 2 ^ floatShift t t := by ring
        omega
      have hlt : floatShift c c < floatShift t t := by
        have h1 : 2 ^ (24 + floatShift c c) < 2 ^ (24 + floatShift t t) := by omega
        have h2 := (Nat.pow_lt_pow_iff_right (by norm_num : 1 < 2)).1 h1
        omega
      by_cases hsucc : floatShift t t = floatShift c c + 1
      · -- same significand window: compare significands, then remainders
        rw [intToFloat_eq c, intToFloat_eq t]
        rw [hsucc] at hdt hrt qt1 qt2 ⊢
        generalize hP : 2 ^ floatShift c c = P at *
        have hP2 : 2 ^ (floatShift c c + 1) = 2 * P := by rw [pow_succ, hP]; ring
        rw [hP2] at hdt hrt qt1 qt2 ⊢
        generalize hqc : c / P = qc at *
        generalize hrc' : c % P = rc at *
        generalize hqt : t / (2 * P) = qt at *
        generalize hrt' : t % (2 * P) = rt at *
        have hq : qc ≤ qt := by
          by_contra hcon
          have h1 : (qt + 1) * P ≤ qc * P := Nat.mul_le_mul_right _ (by omega)
          have h2 : 2 * P * qt = 2 * (qt * P) := by ring
          have h3 : P * qc = qc * P := by ring
          have h4 : (qt + 1) * P = qt * P + P := by ring
          omega
        rcases Nat.lt_or_ge qc qt with hq' | hq'
        · have h1 : (qc + 1) * P ≤ qt * P := Nat.mul_le_mul_right _ (by omega)
          have h2 : qt * (2 * P) = 2 * (qt * P) := by ring
          have h3 : (qt + 1) * (2 * P) = 2 * (qt * P) + 2 * P := by ring
          have h4 : (qc + 1) * P = qc * P + P := by ring
          split <;> split <;> omega
        · have hqq : qc = qt := by omega
          subst hqq
          have h2 : qc * (2 * P) = 2 * (qc * P) := by ring
          have h3 : (qc + 1) * (2 * P) = 2 * (qc * P) + 2 * P := by ring
          have h4 : (qc + 1) * P = qc * P + P := by ring
          have h5 : 2 * P * qc = 2 * (qc * P) := by ring
          have h6 : P * qc = qc * P := by ring
          split <;> split <;> omega
      · have h1 : 2 ^ (25 + floatShift c c) ≤ 2 ^ (23 + floatShift t t) :=
          Nat.pow_le_pow_right (by norm_num) (by omega)
        have h2 : (c / 2 ^ floatShift c c + 1) * 2 ^ floatShift c c
            ≤ 2 ^ 24 * 2 ^ floatShift c c := Nat.mul_le_mul_right _ qc2
        have h3 : 2 ^ 23 * 2 ^ floatShift t t ≤ t / 2 ^ floatShift t t * 2 ^ floatShift t t :=
          Nat.mul_le_mul_right _ qt1
        have h4 : 2 ^ (25 + floatShift c c) = 2 * (2 ^ 24 * 2 ^ floatShift c c) := by ring
        have h5 : 2 ^ (23 + floatShift t t) = 2 ^ 23 * 2 ^ floatShift t t := by ring
        omega

/-- Below `2 ^ 24` the `float` comparison is the exact one; above, a count that
the comparison lets through is still more than half. -/
theorem exceedsHalf_imp (votes totalBallots : Nat)
    (h : exceedsHalf votes (halfOf totalBallots) = true) : totalBallots < 2 * votes := by
  by_contra hcon
  have h2 : 2 * intToFloat votes ≤ intToFloat totalBallots :=
    two_mul_intToFloat_le _ _ (by omega)
  simp only [exceedsHalf, halfOf, decide_eq_true_eq] at h
  omega

theorem exceedsHalf_iff_of_small (votes totalBallots : Nat) (hn : totalBallots < 2 ^ 24) :
    exceedsHalf votes (halfOf totalBallots) = true ↔ totalBallots < 2 * votes := by
  refine ⟨exceedsHalf_imp votes totalBallots, fun h => ?_⟩
  simp only [exceedsHalf, halfOf, decide_eq_true_eq, intToFloat_small totalBallots hn]
  by_cases hv : votes < 2 ^ 24
  · rw [intToFloat_small votes hv]; exact h
  · obtain ⟨e1, q1, _⟩ := floatShift_spec votes (not_lt.1 hv)
    obtain ⟨b1, _⟩ := intToFloat_bounds votes
    have h2 : 2 ^ 1 ≤ 2 ^ floatShift votes votes := Nat.pow_le_pow_right (by norm_num) e1
    have h3 := Nat.mul_le_mul q1 h2
    norm_num at h3 hn
    omega

/-! ## Lemmas on the table -/

namespace HashTable

variable {α : Type}

theorem lookup_modifyEntry (k k' : String) (f : α → α) (es : List (String × α)) :
    lookup k' (modifyEntry k f es) = if k' = k then (lookup k es).map f else lookup k' es := by
  induction es with
  | nil => simp [modifyEntry, lookup]
  | cons e es ih =>
    by_cases h1 : e.1 = k
    · by_cases h2 : k' = k
      · subst h2; simp [modifyEntry, lookup, h1]
      · have h3 : ¬ k = k' := fun h => h2 h.symm
        simp [modifyEntry, lookup, h1, h2, h3]
    · by_cases h2 : k' = k
      · subst h2; simp [modifyEntry, lookup, h1, ih]
      · by_cases h3 : e.1 = k'
        · simp [modifyEntry, lookup, h1, h2, h3]
        · simp [modifyEntry, lookup, h1, h2, h3, ih]

theorem get_modify (t : HashTable α) (k k' : String) (f : α → α) :
    (t.modify k f).get k' = if k' = k then (t.get k).map f else t.get k' :=
  lookup_modifyEntry k k' f t.entries

theorem map_fst_modifyEntry (k : String) (f : α → α) (es : List (String × α)) :
    (modifyEntry k f es).map Prod.fst = es.map Prod.fst := by
  induction es with
  | nil => rfl
  | cons e es ih =>
    by_cases h1 : e.1 = k <;> simp [modifyEntry, h1, ih]

theorem keys_modify (t : HashTable α) (k : String) (f : α → α) :
    (t.modify k f).keys = t.keys :=
  map_fst_modifyEntry k f t.entries

theorem lookup_eq_none_iff (k : String) (es : List (String × α)) :
    lookup k es = none ↔ k ∉ es.map Prod.fst := by
  induction es with
  | nil => simp [lookup]
  | cons e es ih =>
    by_cases h1 : e.1 = k
    · simp [lookup, h1]
    · have h2 : ¬ k = e.1 := fun h => h1 h.symm
      simp [lookup, h1, h2, ih]

theorem lookup_of_mem (k : String) (v : α) (es : List (String × α))
    (hnd : (es.map Prod.fst).Nodup) (hmem : (k, v) ∈ es) : lookup k es = some v := by
  induction es with
  | nil => simp at hmem
  | cons e es ih =>
    simp only [List.map_cons, List.nodup_cons] at hnd
    rcases List.mem_cons.1 hmem with h | h
    · subst h; simp [lookup]
    · have h1 : ¬ e.1 = k := by
        intro h2
        apply hnd.1
        rw [h2]
        exact List.mem_map.2 ⟨(k, v), h, rfl⟩
      simp [lookup, h1, ih hnd.2 h]

theorem mem_of_lookup (k : String) (v : α) (es : List (String × α))
    (h : lookup k es = some v) : (k, v) ∈ es := by
  induction es with
  | nil => simp [lookup] at h
  | cons e es ih =>
    by_cases h1 : e.1 = k
    · simp [lookup, h1] at h
      subst h; subst h1; simp
    · simp [lookup, h1] at h
      exact List.mem_cons_of_mem _ (ih h)

theorem insertEntry_of_not_mem (k : String) (v : α) (es : List (String × α))
    (h : k ∉ es.map Prod.fst) : insertEntry k v es = es ++ [(k, v)] := by
  induction es with
  | nil => rfl
  | cons e es ih =>
    simp only [List.map_cons, List.mem_cons, not_or] at h
    have h1 : ¬ e.1 = k := fun h2 => h.1 h2.symm
    simp [insertEntry, h1, ih h.2]

end HashTable

/-! ## Lemmas on `tallyRoundVotes` -/

theorem isActive_iff (candidates : HashTable Candidate) (k : String) :
    isActive candidates k = true ↔ ∃ c, candidates.get k = some c ∧ c.eliminated = false := by
  unfold isActive
  cases candidates.get k <;> simp

theorem isEliminated_iff (candidates : HashTable Candidate) (k : String) :
    isEliminated candidates k = true ↔ ∃ c, candidates.get k = some c ∧ c.eliminated = true := by
  unfold isEliminated
  cases candidates.get k <;> simp

/-- What the `while` loop does to one ballot, by the state of its three ranked
candidates: the result of `skipEliminated` entered as in `tallyRoundVotes`. -/
theorem skipEliminated_cases (candidates : HashTable Candidate) (b : Ballot) :
    (isActive candidates b.h = true ∧ skipEliminated candidates 4 1 b = .ok b) ∨
    (isEliminated candidates b.h = true ∧ isActive candidates b.s = true ∧
      skipEliminated candidates 4 1 b = .ok { b with h := b.s }) ∨
    (isEliminated candidates b.h = true ∧ isEliminated candidates b.s = true ∧
      isActive candidates b.t = true ∧
      skipEliminated candidates 4 1 b = .ok { b with h := b.t }) ∨
    (isEliminated candidates b.h = true ∧ isEliminated candidates b.s = true ∧
      isEliminated candidates b.t = true ∧
      skipEliminated candidates 4 1 b = .error .outOfRange) ∨
    ((candidates.get b.h = none ∨
      (isEliminated candidates b.h = true ∧ candidates.get b.s = none) ∨
      (isEliminated candidates b.h = true ∧ isEliminated candidates b.s = true ∧
        candidates.get b.t = none)) ∧
      skipEliminated candidates 4 1 b = .error .nullDereference) := by
  simp only [skipEliminated, Ballot.getHighestRankedCandidate, Ballot.setHighestRankedCandidate,
    Ballot.candidateRanksAt, Candidate.getEliminated, isActive, isEliminated]
  cases hh : candidates.get b.h with
  | none => simp
  | some ch =>
    cases hhe : ch.eliminated with
    | false => simp [hhe]
    | true =>
      cases hs : candidates.get b.s with
      | none => simp [hhe]
      | some cs =>
        cases hse : cs.eliminated with
        | false => simp [hhe, hse]
        | true =>
          cases ht : candidates.get b.t with
          | none => simp [hhe, hse]
          | some ct =>
            cases hte : ct.eliminated with
            | false => simp [hhe, hse, hte]
            | true => simp [hhe, hse, hte]

theorem isActive_of_isEliminated {candidates : HashTable Candidate} {k : String}
    (h : isEliminated candidates k = true) : isActive candidates k = false := by
  unfold isEliminated at h
  unfold isActive
  cases hk : candidates.get k with
  | none => rfl
  | some c => simp [hk] at h; simp [h]

theorem isActive_of_get_none {candidates : HashTable Candidate} {k : String}
    (h : candidates.get k = none) : isActive candidates k = false := by
  simp [isActive, h]

theorem firstActive_eq (candidates : HashTable Candidate) (b : Ballot) :
    firstActive candidates b =
      if isActive candidates b.h then some b.h
      else if isActive candidates b.s then some b.s
      else if isActive candidates b.t then some b.t else none := by
  unfold firstActive
  cases h1 : isActive candidates b.h <;> cases h2 : isActive candidates b.s <;>
    cases h3 : isActive candidates b.t <;> simp [List.find?, h1, h2, h3]

/-- A ballot on which the `while` loop ends normally is left with its first
active candidate at position 0, the other positions untouched. -/
theorem skipEliminated_ok {candidates : HashTable Candidate} {b b' : Ballot}
    (h : skipEliminated candidates 4 1 b = .ok b') :
    firstActive candidates b = some b'.h ∧ isActive candidates b'.h = true ∧
      b'.s = b.s ∧ b'.t = b.t := by
  rw [firstActive_eq]
  rcases skipEliminated_cases candidates b with ⟨h1, h2⟩ | ⟨h1, h2, h3⟩ | ⟨h1, h2, h3, h4⟩ |
      ⟨h1, h2, h3, h4⟩ | ⟨_, h2⟩
  · rw [h2] at h; cases h; simp [h1]
  · rw [h3] at h; cases h; simp [isActive_of_isEliminated h1, h2]
  · rw [h4] at h; cases h
    simp [isActive_of_isEliminated h1, isActive_of_isEliminated h2, h3]
  · rw [h4] at h; cases h
  · rw [h2] at h; cases h

/-- On a ballot whose ranked ids are all registered the `while` loop ends
normally as soon as one of them is active. -/
theorem skipEliminated_of_firstActive {candidates : HashTable Candidate} {b : Ballot} {k : String}
    (hreg : allRegistered candidates b) (hk : firstActive candidates b = some k) :
    ∃ b', skipEliminated candidates 4 1 b = .ok b' ∧ b'.h = k := by
  rw [firstActive_eq] at hk
  rcases skipEliminated_cases candidates b with ⟨h1, h2⟩ | ⟨h1, h2, h3⟩ | ⟨h1, h2, h3, h4⟩ |
      ⟨h1, h2, h3, h4⟩ | ⟨h1, _⟩
  · refine ⟨b, h2, ?_⟩
    simpa [h1] using hk
  · refine ⟨_, h3, ?_⟩
    simpa [isActive_of_isEliminated h1, h2] using hk
  · refine ⟨_, h4, ?_⟩
    simpa [isActive_of_isEliminated h1, isActive_of_isEliminated h2, h3] using hk
  · simp [isActive_of_isEliminated h1, isActive_of_isEliminated h2,
      isActive_of_isEliminated h3] at hk
  · exfalso
    obtain ⟨r1, r2, r3⟩ := hreg
    rcases h1 with h | ⟨_, h⟩ | ⟨_, _, h⟩
    · simp [h] at r1
    · simp [h] at r2
    · simp [h] at r3

/-- A ballot whose three ranked candidates are all eliminated makes the
`while` loop read rank position 3. -/
theorem skipEliminated_of_allEliminated {candidates : HashTable Candidate} {b : Ballot}
    (h : allEliminated candidates b) :
    skipEliminated candidates 4 1 b = .error .outOfRange := by
  obtain ⟨e1, e2, e3⟩ := h
  have a1 := isActive_of_isEliminated e1
  have a2 := isActive_of_isEliminated e2
  have a3 := isActive_of_isEliminated e3
  rcases skipEliminated_cases candidates b with ⟨h1, _⟩ | ⟨_, h2, _⟩ | ⟨_, _, h3, _⟩ |
      ⟨_, _, _, h4⟩ | ⟨h1, _⟩
  · simp [a1] at h1
  · simp [a2] at h2
  · simp [a3] at h3
  · exact h4
  · exfalso
    rcases h1 with h | ⟨_, h⟩ | ⟨_, _, h⟩
    · simp [isEliminated, h] at e1
    · simp [isEliminated, h] at e2
    · simp [isEliminated, h] at e3

/-- The bound 4 of the embedding is never reached by the `while` loop. -/
theorem skipEliminated_ne_outOfFuel (candidates : HashTable Candidate) (b : Ballot) :
    skipEliminated candidates 4 1 b ≠ .error .outOfFuel := by
  rcases skipEliminated_cases candidates b with ⟨_, h⟩ | ⟨_, _, h⟩ | ⟨_, _, _, h⟩ |
      ⟨_, _, _, h⟩ | ⟨_, h⟩ <;> simp [h]

theorem sum_modifyEntry_succ (k : String) (es : List (String × Nat)) (v : Nat)
    (h : HashTable.lookup k es = some v) :
    ((HashTable.modifyEntry k (fun n => n + 1) es).map Prod.snd).sum
      = (es.map Prod.snd).sum + 1 := by
  induction es with
  | nil => simp [HashTable.lookup] at h
  | cons e es ih =>
    by_cases h1 : e.1 = k
    · simp [HashTable.modifyEntry, h1]; omega
    · simp [HashTable.lookup, h1] at h
      simp [HashTable.modifyEntry, h1, ih h]; omega

theorem totalVotes_modify_succ (tally : HashTable Nat) (k : String) (v : Nat)
    (h : tally.get k = some v) :
    totalVotes (tally.modify k (fun n => n + 1)) = totalVotes tally + 1 :=
  sum_modifyEntry_succ k tally.entries v h

/-- The ballot loop of `tallyRoundVotes`, when it completes: every count grows
by the number of ballots whose first active candidate is that key, the keys
are kept, the counts grow by the number of ballots in total, and no ballot is
exhausted. -/
theorem tallyBallots_ok {candidates : HashTable Candidate} :
    ∀ (bs : List Ballot) (t t' : HashTable Nat) (bs' : List Ballot),
      tallyBallots candidates bs t = .ok (t', bs') →
      (∀ k, t'.get k =
        (t.get k).map (fun n => n + bs.countP (fun b => firstActive candidates b = some k))) ∧
      t'.keys = t.keys ∧ totalVotes t' = totalVotes t + bs.length ∧
      exhaustedCount candidates bs = 0 ∧ List.Forall₂ (Advanced candidates) bs bs' := by
  intro bs
  induction bs with
  | nil =>
    intro t t' bs' h
    simp only [tallyBallots, Except.ok.injEq, Prod.mk.injEq] at h
    obtain ⟨rfl, rfl⟩ := h
    refine ⟨fun k => ?_, rfl, rfl, rfl, List.Forall₂.nil⟩
    cases t.get k <;> simp
  | cons b rest ih =>
    intro t t' bs' h
    simp only [tallyBallots] at h
    cases hs : skipEliminated candidates 4 1 b with
    | error e => simp [hs] at h
    | ok b1 =>
      obtain ⟨hfa, hact, hs1, ht1⟩ := skipEliminated_ok hs
      cases hg : t.get b1.getHighestRankedCandidate with
      | none => simp [hs, hg] at h
      | some v =>
        cases hr : tallyBallots candidates rest
            (t.modify b1.getHighestRankedCandidate (fun n => n + 1)) with
        | error e => simp [hs, hg, hr] at h
        | ok res =>
          obtain ⟨t1, rest1⟩ := res
          simp only [hs, hg, hr, Except.ok.injEq, Prod.mk.injEq] at h
          obtain ⟨rfl, rfl⟩ := h
          obtain ⟨ih1, ih2, ih3, ih4, ih5⟩ := ih _ _ _ hr
          refine ⟨fun k => ?_, ?_, ?_, ?_, ?_⟩
          · rw [ih1 k, HashTable.get_modify]
            simp only [Ballot.getHighestRankedCandidate] at hg ⊢
            by_cases hk : k = b1.h
            · subst hk
              simp [hg, List.countP_cons, hfa]; omega
            · have hne : ¬ some b1.h = some k := fun h2 => hk (Option.some.inj h2).symm
              simp [hk, List.countP_cons, hfa, hne]
          · rw [ih2, HashTable.keys_modify]
          · rw [ih3, totalVotes_modify_succ t _ v hg]
            simp; omega
          · unfold exhaustedCount at ih4 ⊢
            rw [List.countP_cons, ih4]
            simp [hfa]
          · exact List.Forall₂.cons ⟨hfa, hs1, ht1⟩ ih5

/-- The ballot loop of `tallyRoundVotes` completes when every ballot has its
ranked ids registered and one of them active, and the tally has an entry for
every active candidate. -/
theorem tallyBallots_complete {candidates : HashTable Candidate} :
    ∀ (bs : List Ballot) (t : HashTable Nat),
      (∀ b ∈ bs, allRegistered candidates b) →
      (∀ b ∈ bs, firstActive candidates b ≠ none) →
      (∀ k, isActive candidates k = true → (t.get k).isSome = true) →
      ∃ t' bs', tallyBallots candidates bs t = .ok (t', bs') := by
  intro bs
  induction bs with
  | nil => intro t _ _ _; exact ⟨t, [], rfl⟩
  | cons b rest ih =>
    intro t hreg hact ht
    obtain ⟨k, hk⟩ := Option.ne_none_iff_exists'.1 (hact b (List.mem_cons_self _ _))
    obtain ⟨b1, hb1, hb1k⟩ := skipEliminated_of_firstActive (hreg b (List.mem_cons_self _ _)) hk
    have hact1 := (skipEliminated_ok hb1).2.1
    obtain ⟨v, hv⟩ := Option.isSome_iff_exists.1 (ht _ hact1)
    have ht1 : ∀ k, isActive candidates k = true →
        ((t.modify b1.getHighestRankedCandidate (fun n => n + 1)).get k).isSome = true := by
      intro k hk
      rw [HashTable.get_modify]
      split
      · rename_i h; subst h
        simp [Ballot.getHighestRankedCandidate, hv]
      · exact ht k hk
    obtain ⟨t', bs', h⟩ := ih (t.modify b1.getHighestRankedCandidate (fun n => n + 1))
      (fun b hb => hreg b (List.mem_cons_of_mem _ hb))
      (fun b hb => hact b (List.mem_cons_of_mem _ hb)) ht1
    refine ⟨t', b1 :: bs', ?_⟩
    simp only [tallyBallots, hb1]
    simp only [Ballot.getHighestRankedCandidate] at hv h ⊢
    simp [hv, h]

theorem seedEntries_keys_subset (es : List (String × Candidate)) (k : String)
    (h : k ∈ (seedEntries es).map Prod.fst) : k ∈ es.map Prod.fst := by
  simp only [seedEntries, List.map_map, List.mem_map, List.mem_filter] at h ⊢
  obtain ⟨e, ⟨he, _⟩, rfl⟩ := h
  exact ⟨e, he, rfl⟩

theorem seedTally_fold (es : List (String × Candidate)) :
    ∀ acc : List (String × Nat), (es.map Prod.fst).Nodup →
      (∀ k ∈ es.map Prod.fst, k ∉ acc.map Prod.fst) →
      es.foldl (fun tally e => if e.2.getEliminated then tally else tally.add e.1 0)
        (⟨acc⟩ : HashTable Nat) = ⟨acc ++ seedEntries es⟩ := by
  induction es with
  | nil => intro acc _ _; simp [seedEntries]
  | cons e es ih =>
    intro acc hnd hdisj
    simp only [List.map_cons, List.nodup_cons] at hnd
    have hk : e.1 ∉ acc.map Prod.fst := hdisj e.1 (by simp)
    rw [List.foldl_cons]
    cases he : e.2.eliminated with
    | true =>
      have hstep : (if e.2.getEliminated = true then (⟨acc⟩ : HashTable Nat)
          else HashTable.add ⟨acc⟩ e.1 0) = ⟨acc⟩ := by
        simp [Candidate.getEliminated, he]
      rw [hstep, ih acc hnd.2 (fun k hk' => hdisj k (List.mem_cons_of_mem _ hk'))]
      simp [seedEntries, he]
    | false =>
      have hstep : (if e.2.getEliminated = true then (⟨acc⟩ : HashTable Nat)
          else HashTable.add ⟨acc⟩ e.1 0) = ⟨acc ++ [(e.1, 0)]⟩ := by
        simp [Candidate.getEliminated, he, HashTable.add,
          HashTable.insertEntry_of_not_mem _ _ _ hk]
      rw [hstep, ih (acc ++ [(e.1, 0)]) hnd.2]
      · simp [seedEntries, he]
      · intro k hk' hmem
        simp only [List.map_append, List.map_cons, List.map_nil, List.mem_append,
          List.mem_singleton] at hmem
        rcases hmem with h | h
        · exact hdisj k (List.mem_cons_of_mem _ hk') h
        · subst h; exact hnd.1 hk'

/-- With distinct ids, the tally starts with one zero entry for each candidate
that is not eliminated, in the order of the candidate table. -/
theorem seedTally_entries (candidates : HashTable Candidate) (hnd : candidates.keys.Nodup) :
    (seedTally candidates).entries = seedEntries candidates.entries := by
  have h := seedTally_fold candidates.entries [] hnd (by simp)
  unfold seedTally HashTable.empty
  rw [h]; simp

theorem insertEntry_zero (k : String) (es : List (String × Nat))
    (h : ∀ e ∈ es, e.2 = 0) : ∀ e ∈ HashTable.insertEntry k 0 es, e.2 = 0 := by
  induction es with
  | nil => intro e he; simp [HashTable.insertEntry] at he; simp [he]
  | cons e0 es ih =>
    intro e he
    by_cases h1 : e0.1 = k
    · simp only [HashTable.insertEntry, h1, if_true, List.mem_cons] at he
      rcases he with rfl | he
      · rfl
      · exact h e (List.mem_cons_of_mem _ he)
    · simp only [HashTable.insertEntry, h1, if_false, List.mem_cons] at he
      rcases he with rfl | he
      · exact h _ (List.mem_cons_self _ _)
      · exact ih (fun e he => h e (List.mem_cons_of_mem _ he)) e he

theorem seedTally_fold_zero (es : List (String × Candidate)) :
    ∀ acc : HashTable Nat, (∀ e ∈ acc.entries, e.2 = 0) →
      ∀ e ∈ (es.foldl (fun tally e => if e.2.getEliminated then tally else tally.add e.1 0)
        acc).entries, e.2 = 0 := by
  induction es with
  | nil => intro acc h; simpa using h
  | cons e0 es ih =>
    intro acc h
    rw [List.foldl_cons]
    apply ih
    split
    · exact h
    · exact insertEntry_zero _ _ h

/-- The tally starts with no votes. -/
theorem totalVotes_seedTally (candidates : HashTable Candidate) :
    totalVotes (seedTally candidates) = 0 := by
  have h := seedTally_fold_zero candidates.entries HashTable.empty (by simp [HashTable.empty])
  unfold totalVotes
  apply List.sum_eq_zero
  intro x hx
  obtain ⟨e, he, rfl⟩ := List.mem_map.1 hx
  exact h e he

theorem seedEntries_nodup (es : List (String × Candidate)) (hnd : (es.map Prod.fst).Nodup) :
    ((seedEntries es).map Prod.fst).Nodup := by
  have h : (seedEntries es).map Prod.fst
      = (es.filter (fun e => !e.2.eliminated)).map Prod.fst := by
    simp [seedEntries, List.map_map, Function.comp_def]
  rw [h]
  exact (List.Nodup.sublist (List.Sublist.map _ (List.filter_sublist _)) hnd)

/-- With distinct ids, the seeded tally holds 0 for an active candidate. -/
theorem seedTally_get_of_active (candidates : HashTable Candidate) (hnd : candidates.keys.Nodup)
    (k : String) (h : isActive candidates k = true) : (seedTally candidates).get k = some 0 := by
  obtain ⟨c, hc, hce⟩ := (isActive_iff _ _).1 h
  have hmem := HashTable.mem_of_lookup _ _ _ hc
  unfold HashTable.get
  rw [seedTally_entries candidates hnd]
  apply HashTable.lookup_of_mem _ _ _ (seedEntries_nodup _ hnd)
  simp only [seedEntries, List.mem_map, List.mem_filter]
  exact ⟨(k, c), ⟨hmem, by simp [hce]⟩, rfl⟩

/-- With distinct ids, every key of the seeded tally is an active candidate. -/
theorem isActive_of_mem_seedTally (candidates : HashTable Candidate) (hnd : candidates.keys.Nodup)
    (k : String) (h : k ∈ (seedTally candidates).keys) : isActive candidates k = true := by
  unfold HashTable.keys at h
  rw [seedTally_entries candidates hnd] at h
  simp only [seedEntries, List.map_map, List.mem_map, List.mem_filter] at h
  obtain ⟨e, ⟨he, hel⟩, rfl⟩ := h
  have := HashTable.lookup_of_mem e.1 e.2 candidates.entries hnd he
  rw [isActive_iff]
  exact ⟨e.2, this, by simpa using hel⟩

/-! ## Claims on `tallyRoundVotes` -/

/-- With distinct ids, registered ranked ids and an active candidate on each
ballot, `tallyRoundVotes` completes with the count of first choices. -/
theorem tallyRoundVotes_complete (candidates : HashTable Candidate) (ballots : List Ballot)
    (hdistinct : candidates.keys.Nodup)
    (hreg : ∀ b ∈ ballots, allRegistered candidates b)
    (hact : ∀ b ∈ ballots, isActive candidates b.h = true ∨ isActive candidates b.s = true ∨
      isActive candidates b.t = true) :
    ∃ tally ballots', tallyRoundVotes ballots candidates = .ok (tally, ballots') ∧
      ∀ k c, (k, c) ∈ candidates.entries → c.eliminated = false →
        tally.get k = some (ballots.countP (fun b => firstActive candidates b = some k)) := by
  have hfa : ∀ b ∈ ballots, firstActive candidates b ≠ none := by
    intro b hb
    rw [firstActive_eq]
    rcases hact b hb with h | h | h
    · simp [h]
    · by_cases h1 : isActive candidates b.h = true <;> simp [h, h1]
    · by_cases h1 : isActive candidates b.h = true <;>
        by_cases h2 : isActive candidates b.s = true <;> simp [h, h1, h2]
  obtain ⟨tally, ballots', hrun⟩ := tallyBallots_complete ballots (seedTally candidates) hreg hfa
    (fun k hk => by rw [seedTally_get_of_active candidates hdistinct k hk]; rfl)
  refine ⟨tally, ballots', hrun, ?_⟩
  intro k c hmem hc
  have hget : candidates.get k = some c := HashTable.lookup_of_mem k c _ hdistinct hmem
  have hk : isActive candidates k = true := (isActive_iff _ _).2 ⟨c, hget, hc⟩
  rw [(tallyBallots_ok ballots _ _ _ hrun).1 k, seedTally_get_of_active candidates hdistinct k hk]
  simp

/-- C1: for a candidate table with distinct ids and ballots whose ranked ids
are all registered and of which each has a ranked candidate that is not
eliminated, `tallyRoundVotes` returns a tally, and the count it holds for each
candidate that is not eliminated is exactly the number of ballots whose first
non-eliminated candidate, in stored rank order, is that candidate. -/
theorem tallyRoundVotes_counts (candidates : HashTable Candidate) (ballots : List Ballot)
    (hdistinct : candidates.keys.Nodup)
    (hreg : ∀ b ∈ ballots, allRegistered candidates b)
    (hact : ∀ b ∈ ballots, isActive candidates b.h = true ∨ isActive candidates b.s = true ∨
      isActive candidates b.t = true) :
    ∃ tally ballots', tallyRoundVotes ballots candidates = .ok (tally, ballots') ∧
      ∀ k c, (k, c) ∈ candidates.entries → c.eliminated = false →
        tally.get k = some (ballots.countP (fun b => firstActive candidates b = some k)) :=
  tallyRoundVotes_complete candidates ballots hdistinct hreg hact

/-- C2: when `tallyRoundVotes` completes, the per-candidate counts of the
returned tally and the exhausted ballots add up to the number of ballots. -/
theorem tallyRoundVotes_total (candidates : HashTable Candidate) (ballots ballots' : List Ballot)
    (tally : HashTable Nat) (h : tallyRoundVotes ballots candidates = .ok (tally, ballots')) :
    totalVotes tally + exhaustedCount candidates ballots = ballots.length := by
  obtain ⟨_, _, h3, h4, _⟩ := tallyBallots_ok ballots _ _ _ h
  rw [h3, h4, totalVotes_seedTally]
  simp

/-! ## Lemmas on `processRoundResults` -/

theorem tallyRoundVotes_tallyFor {candidates : HashTable Candidate} {ballots ballots' : List Ballot}
    {t : HashTable Nat} (hnd : candidates.keys.Nodup)
    (h : tallyRoundVotes ballots candidates = .ok (t, ballots')) : TallyFor candidates t := by
  have hk := (tallyBallots_ok ballots _ _ _ h).2.1
  constructor
  · rw [hk]
    unfold HashTable.keys
    rw [seedTally_entries candidates hnd]
    exact seedEntries_nodup _ hnd
  · intro k hmem
    rw [hk] at hmem
    exact isActive_of_mem_seedTally candidates hnd k hmem

theorem tallyFor_get_of_mem {candidates : HashTable Candidate} {t : HashTable Nat}
    (h : TallyFor candidates t) {e : String × Nat} (he : e ∈ t.entries) :
    t.get e.1 = some e.2 ∧ isActive candidates e.1 = true :=
  ⟨HashTable.lookup_of_mem e.1 e.2 t.entries h.1 he,
    h.2 e.1 (List.mem_map.2 ⟨e, he, rfl⟩)⟩

/-- One step of the loop of `processRoundResults` at an entry whose candidate
is active and whose count is stored in the tally. -/
theorem scanTally_cons (t : HashTable Nat) (candidates : HashTable Candidate)
    (half : FloatHalves) (cur : String × Nat) (rest : List (String × Nat))
    (loser win : String) (c : Candidate) (lv : Nat)
    (hc : candidates.get cur.1 = some c) (hce : c.eliminated = false)
    (hv : t.get cur.1 = some cur.2) (hl : t.get loser = some lv) :
    scanTally t candidates half (cur :: rest) loser win =
      if exceedsHalf cur.2 half = true then scanTally t candidates half rest loser c.name
      else if cur.2 < lv then scanTally t candidates half rest cur.1 win
      else scanTally t candidates half rest loser win := by
  simp only [scanTally, hc, Candidate.getEliminated, hce, hv, hl, Candidate.getName]
  simp

/-- The loop of `processRoundResults` over entries of active candidates ends
normally; the loser it leaves is the one it started with or a key it visited,
and `win` is the name of a visited candidate whose count exceeds the threshold,
or is untouched when there is none. -/
theorem scanTally_ok (t : HashTable Nat) (candidates : HashTable Candidate)
    (half : FloatHalves) (es : List (String × Nat)) :
    ∀ (loser win : String),
      (∀ e ∈ es, t.get e.1 = some e.2 ∧ isActive candidates e.1 = true) →
      (t.get loser).isSome = true →
      ∃ loser' win', scanTally t candidates half es loser win = .ok (loser', win') ∧
        (loser' = loser ∨ loser' ∈ es.map Prod.fst) ∧
        ((∃ e ∈ es, exceedsHalf e.2 half = true ∧
            ∃ c, candidates.get e.1 = some c ∧ win' = c.name) ∨
          ((∀ e ∈ es, exceedsHalf e.2 half = false) ∧ win' = win)) := by
  induction es with
  | nil =>
    intro loser win _ _
    exact ⟨loser, win, rfl, Or.inl rfl, Or.inr ⟨by simp, rfl⟩⟩
  | cons cur rest ih =>
    intro loser win hes hl
    obtain ⟨hv, hact⟩ := hes cur (List.mem_cons_self _ _)
    obtain ⟨c, hc, hce⟩ := (isActive_iff _ _).1 hact
    obtain ⟨lv, hlv⟩ := Option.isSome_iff_exists.1 hl
    have hrest : ∀ e ∈ rest, t.get e.1 = some e.2 ∧ isActive candidates e.1 = true :=
      fun e he => hes e (List.mem_cons_of_mem _ he)
    rw [scanTally_cons t candidates half cur rest loser win c lv hc hce hv hlv]
    by_cases hex : exceedsHalf cur.2 half = true
    · rw [if_pos hex]
      obtain ⟨l', w', hrun, hl', hw'⟩ := ih loser c.name hrest hl
      refine ⟨l', w', hrun, ?_, Or.inl ?_⟩
      · rcases hl' with h | h
        · exact Or.inl h
        · exact Or.inr (List.mem_cons_of_mem _ h)
      · rcases hw' with ⟨e, he, hee, c', hc', hw⟩ | ⟨_, hw⟩
        · exact ⟨e, List.mem_cons_of_mem _ he, hee, c', hc', hw⟩
        · exact ⟨cur, List.mem_cons_self _ _, hex, c, hc, hw⟩
    · rw [if_neg hex]
      have hex' : exceedsHalf cur.2 half = false := by simpa using hex
      have key : ∀ l, (t.get l).isSome = true → (l = loser ∨ l = cur.1) →
          ∃ loser' win', scanTally t candidates half rest l win = .ok (loser', win') ∧
            (loser' = loser ∨ loser' ∈ (cur :: rest).map Prod.fst) ∧
            ((∃ e ∈ cur :: rest, exceedsHalf e.2 half = true ∧
                ∃ c, candidates.get e.1 = some c ∧ win' = c.name) ∨
              ((∀ e ∈ cur :: rest, exceedsHalf e.2 half = false) ∧ win' = win)) := by
        intro l hl2 hl3
        obtain ⟨l', w', hrun, hl', hw'⟩ := ih l win hrest hl2
        refine ⟨l', w', hrun, ?_, ?_⟩
        · rcases hl' with h | h
          · rcases hl3 with h3 | h3
            · exact Or.inl (h.trans h3)
            · exact Or.inr (by rw [h, h3]; simp)
          · exact Or.inr (List.mem_cons_of_mem _ h)
        · rcases hw' with ⟨e, he, hee, c', hc', hw⟩ | ⟨hall, hw⟩
          · exact Or.inl ⟨e, List.mem_cons_of_mem _ he, hee, c', hc', hw⟩
          · refine Or.inr ⟨fun e he => ?_, hw⟩
            rcases List.mem_cons.1 he with rfl | he
            · exact hex'
            · exact hall e he
      by_cases hlt : cur.2 < lv
      · rw [if_pos hlt]
        exact key cur.1 (by rw [hv]; rfl) (Or.inr rfl)
      · rw [if_neg hlt]
        exact key loser hl (Or.inl rfl)

/-- The loop of `processRoundResults` when no visited count exceeds the
threshold: `win` is untouched, and the loser is the first visited entry with
the lowest count if that count is below the count of the starting loser, the
starting loser otherwise. -/
theorem scanTally_lowest (t : HashTable Nat) (candidates : HashTable Candidate)
    (half : FloatHalves) (es : List (String × Nat)) :
    ∀ (loser win : String) (lv : Nat),
      (∀ e ∈ es, t.get e.1 = some e.2 ∧ isActive candidates e.1 = true) →
      t.get loser = some lv →
      (∀ e ∈ es, exceedsHalf e.2 half = false) →
      ∃ loser', scanTally t candidates half es loser win = .ok (loser', win) ∧
        ((loser' = loser ∧ ∀ e ∈ es, lv ≤ e.2) ∨
          (∃ pre m post, es = pre ++ (loser', m) :: post ∧ m < lv ∧
            (∀ p ∈ pre, m < p.2) ∧ (∀ p ∈ post, m ≤ p.2))) := by
  induction es with
  | nil =>
    intro loser win lv _ _ _
    exact ⟨loser, rfl, Or.inl ⟨rfl, by simp⟩⟩
  | cons cur rest ih =>
    intro loser win lv hes hlv hno
    obtain ⟨hv, hact⟩ := hes cur (List.mem_cons_self _ _)
    obtain ⟨c, hc, hce⟩ := (isActive_iff _ _).1 hact
    have hrest : ∀ e ∈ rest, t.get e.1 = some e.2 ∧ isActive candidates e.1 = true :=
      fun e he => hes e (List.mem_cons_of_mem _ he)
    have hnorest : ∀ e ∈ rest, exceedsHalf e.2 half = false :=
      fun e he => hno e (List.mem_cons_of_mem _ he)
    have hex : ¬ exceedsHalf cur.2 half = true := by
      simp [hno cur (List.mem_cons_self _ _)]
    rw [scanTally_cons t candidates half cur rest loser win c lv hc hce hv hlv, if_neg hex]
    by_cases hlt : cur.2 < lv
    · rw [if_pos hlt]
      obtain ⟨l', hrun, hl'⟩ := ih cur.1 win cur.2 hrest hv hnorest
      refine ⟨l', hrun, Or.inr ?_⟩
      rcases hl' with ⟨h1, h2⟩ | ⟨pre, m, post, h1, h2, h3, h4⟩
      · exact ⟨[], cur.2, rest, by rw [h1]; rfl, hlt, by simp, h2⟩
      · refine ⟨cur :: pre, m, post, by rw [h1]; rfl, by omega, ?_, h4⟩
        intro p hp
        rcases List.mem_cons.1 hp with rfl | hp
        · exact h2
        · exact h3 p hp
    · rw [if_neg hlt]
      obtain ⟨l', hrun, hl'⟩ := ih loser win lv hrest hlv hnorest
      refine ⟨l', hrun, ?_⟩
      rcases hl' with ⟨h1, h2⟩ | ⟨pre, m, post, h1, h2, h3, h4⟩
      · refine Or.inl ⟨h1, fun e he => ?_⟩
        rcases List.mem_cons.1 he with rfl | he
        · omega
        · exact h2 e he
      · refine Or.inr ⟨cur :: pre, m, post, by rw [h1]; rfl, h2, ?_, h4⟩
        intro p hp
        rcases List.mem_cons.1 hp with rfl | hp
        · omega
        · exact h3 p hp

theorem modifyEntry_split {α : Type} (k : String) (f : α → α) (c : α) :
    ∀ es : List (String × α), HashTable.lookup k es = some c →
      ∃ pre post, es = pre ++ (k, c) :: post ∧
        HashTable.modifyEntry k f es = pre ++ (k, f c) :: post := by
  intro es
  induction es with
  | nil => intro h; simp [HashTable.lookup] at h
  | cons e es ih =>
    intro h
    by_cases h1 : e.1 = k
    · simp only [HashTable.lookup, h1, if_true, Option.some.injEq] at h
      refine ⟨[], es, ?_, ?_⟩
      · rw [← h, ← h1]; rfl
      · simp [HashTable.modifyEntry, h1, h]
    · simp only [HashTable.lookup, h1, if_false] at h
      obtain ⟨pre, post, h2, h3⟩ := ih h
      refine ⟨e :: pre, post, by rw [h2]; rfl, ?_⟩
      simp [HashTable.modifyEntry, h1, h3]

/-- On a tally of `tallyRoundVotes` that is not empty, `processRoundResults`
ends normally and eliminates one active candidate, a key of the tally; `win`
becomes the name of a candidate whose count exceeds the threshold, or is
untouched when there is none. -/
theorem processRoundResults_ok {candidates : HashTable Candidate} {t : HashTable Nat}
    (half : FloatHalves) (win : String) (ht : TallyFor candidates t) (hne : t.entries ≠ []) :
    ∃ loser candidates' win',
      processRoundResults t candidates half win = .ok (candidates', win') ∧
      loser ∈ t.keys ∧ EliminatesOne candidates candidates' loser ∧
      ((∃ e ∈ t.entries, exceedsHalf e.2 half = true ∧
          ∃ c, candidates.get e.1 = some c ∧ win' = c.name) ∨
        ((∀ e ∈ t.entries, exceedsHalf e.2 half = false) ∧ win' = win)) := by
  cases hents : t.entries with
  | nil => exact absurd hents hne
  | cons first rest =>
    have hfirst : first ∈ t.entries := by rw [hents]; exact List.mem_cons_self _ _
    have hget := (tallyFor_get_of_mem ht hfirst).1
    obtain ⟨loser, win', hscan, hloser, hwin⟩ := scanTally_ok t candidates half t.entries
      first.1 win (fun e he => tallyFor_get_of_mem ht he) (by rw [hget]; rfl)
    have hmem : loser ∈ t.keys := by
      rcases hloser with h | h
      · rw [h]; exact List.mem_map.2 ⟨first, hfirst, rfl⟩
      · exact h
    obtain ⟨c, hc, hce⟩ := (isActive_iff _ _).1 (ht.2 loser hmem)
    obtain ⟨pre, post, h1, h2⟩ := modifyEntry_split loser Candidate.setEliminated c _ hc
    refine ⟨loser, candidates.modify loser Candidate.setEliminated, win', ?_, hmem,
      ⟨pre, c, post, h1, hce, h2⟩, ?_⟩
    · unfold processRoundResults
      rw [hents] at hscan ⊢
      simp only [hscan, hc]
    · rw [hents] at hwin; exact hwin

/-- On a tally of `tallyRoundVotes` in which no count exceeds the threshold,
`processRoundResults` eliminates the first entry with the lowest count. -/
theorem processRoundResults_lowest {candidates : HashTable Candidate} {t : HashTable Nat}
    (half : FloatHalves) (win : String) (ht : TallyFor candidates t) (hne : t.entries ≠ [])
    (hno : ∀ e ∈ t.entries, exceedsHalf e.2 half = false) :
    ∃ pre loser m post, t.entries = pre ++ (loser, m) :: post ∧
      (∀ p ∈ pre, m < p.2) ∧ (∀ p ∈ post, m ≤ p.2) ∧
      processRoundResults t candidates half win
        = .ok (candidates.modify loser Candidate.setEliminated, win) := by
  cases hents : t.entries with
  | nil => exact absurd hents hne
  | cons first rest =>
    have hfirst : first ∈ t.entries := by rw [hents]; exact List.mem_cons_self _ _
    have hget := (tallyFor_get_of_mem ht hfirst).1
    obtain ⟨loser, hscan, hl⟩ := scanTally_lowest t candidates half t.entries
      first.1 win first.2 (fun e he => tallyFor_get_of_mem ht he) hget hno
    have hsplit : ∃ pre m post, first :: rest = pre ++ (loser, m) :: post ∧
        (∀ p ∈ pre, m < p.2) ∧ (∀ p ∈ post, m ≤ p.2) := by
      rcases hl with ⟨h1, h2⟩ | ⟨pre, m, post, h1, _, h3, h4⟩
      · refine ⟨[], first.2, rest, by rw [h1]; rfl, by simp, fun p hp => ?_⟩
        exact h2 p (by rw [hents]; exact List.mem_cons_of_mem _ hp)
      · exact ⟨pre, m, post, by rw [← hents]; exact h1, h3, h4⟩
    obtain ⟨pre, m, post, h1, h2, h3⟩ := hsplit
    have hmem : loser ∈ t.keys := by
      unfold HashTable.keys
      rw [hents, h1]; simp
    obtain ⟨c, hc, _⟩ := (isActive_iff _ _).1 (ht.2 loser hmem)
    refine ⟨pre, loser, m, post, h1, h2, h3, ?_⟩
    unfold processRoundResults
    rw [hents] at hscan ⊢
    simp only [hscan, hc]

theorem electionLoop_of_winner (half : FloatHalves) (fuel : Nat) (ballots : List Ballot)
    (candidates : HashTable Candidate) (roundNum : Nat) (winner : String)
    (tallies : List (HashTable Nat)) (h : winner ≠ "") :
    electionLoop half fuel ballots candidates roundNum winner tallies
      = .finished winner roundNum candidates tallies := by
  cases fuel <;> simp [electionLoop, h]

theorem electionLoop_step (half : FloatHalves) (fuel : Nat) (ballots ballots' : List Ballot)
    (candidates candidates' : HashTable Candidate) (roundNum : Nat) (winner' : String)
    (tallies : List (HashTable Nat)) (t : HashTable Nat)
    (h1 : tallyRoundVotes ballots candidates = .ok (t, ballots'))
    (h2 : processRoundResults t candidates half "" = .ok (candidates', winner')) :
    electionLoop half (fuel + 1) ballots candidates roundNum "" tallies
      = electionLoop half fuel ballots' candidates' (roundNum + 1) winner' (tallies ++ [t]) := by
  simp [electionLoop, h1, h2]

/-! ## Claims on `processRoundResults` and the scenario -/

/-- C4: on a non-empty tally of `tallyRoundVotes` in which no candidate has a
majority, the candidate that `processRoundResults` eliminates has a count
that is at most every other count, and strictly below the count of every
candidate before it in the order of the tally: among the candidates tied for
the lowest count it is the first. -/
theorem processRoundResults_eliminates_first_lowest (candidates : HashTable Candidate)
    (ballots ballots' : List Ballot) (t : HashTable Nat) (totalBallots : Nat) (win : String)
    (hdistinct : candidates.keys.Nodup)
    (hrun : tallyRoundVotes ballots candidates = .ok (t, ballots'))
    (hne : t.entries ≠ [])
    (hno : ∀ e ∈ t.entries, 2 * e.2 ≤ totalBallots) :
    ∃ pre loser m post, t.entries = pre ++ (loser, m) :: post ∧
      (∀ p ∈ pre, m < p.2) ∧ (∀ p ∈ post, m ≤ p.2) ∧
      processRoundResults t candidates (halfOf totalBallots) win
        = .ok (candidates.modify loser Candidate.setEliminated, win) := by
  apply processRoundResults_lowest _ _ (tallyRoundVotes_tallyFor hdistinct hrun) hne
  intro e he
  cases hex : exceedsHalf e.2 (halfOf totalBallots) with
  | false => rfl
  | true =>
    have := exceedsHalf_imp _ _ hex
    have := hno e he
    omega

/-- C5: the scenario with candidates A, B, C and five ballots: round 1 tallies
A=2, B=1, C=2, declares no winner and eliminates B; round 2 tallies A=3, C=2
and declares A; the loop ends after round 2 with winner A. -/
theorem scenario_run :
    tallyRoundVotes scenarioBallots scenarioCandidates = .ok (scenarioTally1, scenarioBallots) ∧
    processRoundResults scenarioTally1 scenarioCandidates (halfOf 5) ""
      = .ok (scenarioCandidates2, "") ∧
    tallyRoundVotes scenarioBallots scenarioCandidates2 = .ok (scenarioTally2, scenarioBallots2) ∧
    processRoundResults scenarioTally2 scenarioCandidates2 (halfOf 5) ""
      = .ok (scenarioCandidates3, "A") ∧
    (∀ fuel, runElection (fuel + 2) scenarioCandidates scenarioBallots
      = .finished "A" 2 scenarioCandidates3 [scenarioTally1, scenarioTally2]) := by
  have h1 : tallyRoundVotes scenarioBallots scenarioCandidates
      = .ok (scenarioTally1, scenarioBallots) := rfl
  have h2 : processRoundResults scenarioTally1 scenarioCandidates (halfOf 5) ""
      = .ok (scenarioCandidates2, "") := rfl
  have h3 : tallyRoundVotes scenarioBallots scenarioCandidates2
      = .ok (scenarioTally2, scenarioBallots2) := rfl
  have h4 : processRoundResults scenarioTally2 scenarioCandidates2 (halfOf 5) ""
      = .ok (scenarioCandidates3, "A") := rfl
  refine ⟨h1, h2, h3, h4, fun fuel => ?_⟩
  have hlen : scenarioBallots.length = 5 := rfl
  unfold runElection
  rw [hlen, electionLoop_step _ _ _ _ _ _ _ _ _ _ h1 h2,
    show fuel + 1 = fuel + 1 from rfl, electionLoop_step _ _ _ _ _ _ _ _ _ _ h3 h4,
    electionLoop_of_winner _ _ _ _ _ _ _ (by decide)]
  rfl

theorem tallyBallots_ne_outOfFuel {candidates : HashTable Candidate} :
    ∀ (bs : List Ballot) (t : HashTable Nat),
      tallyBallots candidates bs t ≠ .error .outOfFuel := by
  intro bs
  induction bs with
  | nil => intro t; simp [tallyBallots]
  | cons b rest ih =>
    intro t
    rw [tallyBallots]
    cases hs : skipEliminated candidates 4 1 b with
    | error e =>
      have := skipEliminated_ne_outOfFuel candidates b
      rw [hs] at this
      simpa using this
    | ok b1 =>
      simp only []
      cases hg : t.get b1.getHighestRankedCandidate with
      | none => simp
      | some v =>
        cases hr : tallyBallots candidates rest
            (t.modify b1.getHighestRankedCandidate (fun n => n + 1)) with
        | error e =>
          have := ih (t.modify b1.getHighestRankedCandidate (fun n => n + 1))
          rw [hr] at this
          simpa using this
        | ok res => simp

/-- The ballot loop of `tallyRoundVotes` stops at an exhausted ballot with
rank index 3 out of range, when every ranked id is registered and the tally
has an entry for every active candidate. -/
theorem tallyBallots_exhausted {candidates : HashTable Candidate} :
    ∀ (bs : List Ballot) (t : HashTable Nat),
      (∃ b ∈ bs, allEliminated candidates b) →
      (∀ b ∈ bs, allRegistered candidates b) →
      (∀ k, isActive candidates k = true → (t.get k).isSome = true) →
      tallyBallots candidates bs t = .error .outOfRange := by
  intro bs
  induction bs with
  | nil => intro t h; simp at h
  | cons b rest ih =>
    intro t hex hreg ht
    simp only [tallyBallots]
    cases hs : skipEliminated candidates 4 1 b with
    | error e =>
      rcases skipEliminated_cases candidates b with ⟨_, h⟩ | ⟨_, _, h⟩ | ⟨_, _, _, h⟩ |
          ⟨_, _, _, h⟩ | ⟨h1, _⟩
      · rw [h] at hs; cases hs
      · rw [h] at hs; cases hs
      · rw [h] at hs; cases hs
      · rw [h] at hs; cases hs; rfl
      · exfalso
        obtain ⟨r1, r2, r3⟩ := hreg b (List.mem_cons_self _ _)
        rcases h1 with h | ⟨_, h⟩ | ⟨_, _, h⟩
        · simp [h] at r1
        · simp [h] at r2
        · simp [h] at r3
    | ok b1 =>
      obtain ⟨hfa, hact, _, _⟩ := skipEliminated_ok hs
      obtain ⟨v, hv⟩ := Option.isSome_iff_exists.1 (ht _ hact)
      have hex' : ∃ b' ∈ rest, allEliminated candidates b' := by
        obtain ⟨b', hb', hall⟩ := hex
        rcases List.mem_cons.1 hb' with rfl | hb'
        · exfalso
          rw [firstActive_eq, isActive_of_isEliminated hall.1,
            isActive_of_isEliminated hall.2.1, isActive_of_isEliminated hall.2.2] at hfa
          simp at hfa
        · exact ⟨b', hb', hall⟩
      have ht1 : ∀ k, isActive candidates k = true →
          ((t.modify b1.getHighestRankedCandidate (fun n => n + 1)).get k).isSome = true := by
        intro k hk
        rw [HashTable.get_modify]
        split
        · rename_i h; subst h
          simp [Ballot.getHighestRankedCandidate, hv]
        · exact ht k hk
      have := ih (t.modify b1.getHighestRankedCandidate (fun n => n + 1)) hex'
        (fun b hb => hreg b (List.mem_cons_of_mem _ hb)) ht1
      simp only [Ballot.getHighestRankedCandidate] at hv this ⊢
      simp [hv, this]

/-- C6, counterexample: with A eliminated, the ballot that ranks A three
times makes `tallyRoundVotes` stop with rank index 3 out of range; no tally is
returned and the second ballot is never counted. -/
theorem tallyRoundVotes_exhausted_example :
    allEliminated exhaustedCandidates ⟨"A", "A", "A"⟩ ∧
      tallyRoundVotes exhaustedBallots exhaustedCandidates = .error .outOfRange :=
  ⟨by decide, rfl⟩

/-- C6, amended: when all three ranked candidates of some ballot are
eliminated, `tallyRoundVotes` does not complete: it stops with a failure and
returns no tally; with distinct ids and every ranked id registered the failure
is the rank index 3 out of range. -/
theorem tallyRoundVotes_exhausted_fails (candidates : HashTable Candidate)
    (ballots : List Ballot) (b : Ballot) (hb : b ∈ ballots)
    (hall : allEliminated candidates b) :
    (tallyRoundVotes ballots candidates = .error .outOfRange ∨
      tallyRoundVotes ballots candidates = .error .nullDereference) ∧
    (candidates.keys.Nodup → (∀ b' ∈ ballots, allRegistered candidates b') →
      tallyRoundVotes ballots candidates = .error .outOfRange) := by
  constructor
  · cases hrun : tallyRoundVotes ballots candidates with
    | error e =>
      cases e with
      | nullDereference => exact Or.inr rfl
      | outOfRange => exact Or.inl rfl
      | outOfFuel => exact absurd hrun (tallyBallots_ne_outOfFuel ballots _)
    | ok res =>
      exfalso
      obtain ⟨t, bs'⟩ := res
      have h0 := (tallyBallots_ok ballots _ _ _ hrun).2.2.2.1
      unfold exhaustedCount at h0
      have hpos : 0 < ballots.countP (fun b => firstActive candidates b = none) := by
        apply List.countP_pos_iff.2
        refine ⟨b, hb, ?_⟩
        rw [firstActive_eq, isActive_of_isEliminated hall.1,
          isActive_of_isEliminated hall.2.1, isActive_of_isEliminated hall.2.2]
        simp
      omega
  · intro hnd hreg
    exact tallyBallots_exhausted ballots _ ⟨b, hb, hall⟩ hreg
      (fun k hk => by rw [seedTally_get_of_active candidates hnd k hk]; rfl)

/-- C7: a round on a non-empty tally of `tallyRoundVotes` ends normally and
turns exactly one candidate that was not eliminated into an eliminated one;
every other entry of the candidate table, the id and name of that candidate,
and the order of the table are unchanged, so no eliminated flag returns to
false. When the round declares no winner (no count exceeds the threshold)
`win` is left as it was. -/
theorem round_without_winner_eliminates_one (candidates : HashTable Candidate)
    (ballots ballots' : List Ballot) (t : HashTable Nat) (half : FloatHalves) (win : String)
    (hdistinct : candidates.keys.Nodup)
    (hrun : tallyRoundVotes ballots candidates = .ok (t, ballots'))
    (hne : t.entries ≠ []) :
    ∃ pre loser c post win',
      candidates.entries = pre ++ (loser, c) :: post ∧ c.eliminated = false ∧
      processRoundResults t candidates half win
        = .ok (⟨pre ++ (loser, { c with eliminated := true }) :: post⟩, win') ∧
      ((∀ e ∈ t.entries, exceedsHalf e.2 half = false) → win' = win) := by
  obtain ⟨loser, candidates', win', hproc, _, ⟨pre, c, post, h1, h2, h3⟩, hwin⟩ :=
    processRoundResults_ok half win (tallyRoundVotes_tallyFor hdistinct hrun) hne
  refine ⟨pre, loser, c, post, win', h1, h2, ?_, fun hno => ?_⟩
  · rw [hproc]
    cases candidates' with
    | mk entries => simp only at h3; rw [h3]
  · rcases hwin with ⟨e, he, hex, _⟩ | ⟨_, hw⟩
    · rw [hno e he] at hex; cases hex
    · exact hw

/-- C8, counterexample: in round 2 of the scenario `processRoundResults`
declares A the winner and still eliminates C, which was not eliminated
before. -/
theorem final_round_eliminates_example :
    tallyRoundVotes scenarioBallots scenarioCandidates2 = .ok (scenarioTally2, scenarioBallots2) ∧
    processRoundResults scenarioTally2 scenarioCandidates2 (halfOf 5) ""
      = .ok (scenarioCandidates3, "A") ∧
    scenarioCandidates2.get "C" = some ⟨"C", "C", false⟩ ∧
    scenarioCandidates3.get "C" = some ⟨"C", "C", true⟩ :=
  ⟨rfl, rfl, rfl, rfl⟩

/-- C8, amended: in the final round, in which `processRoundResults` declares
a winner, one candidate is eliminated all the same: `win` becomes the name of
a candidate whose count exceeds the threshold, the eliminated flag of exactly
one candidate goes from false to true, and every other candidate has the same
flag after as before. -/
theorem final_round_eliminates_one (candidates : HashTable Candidate)
    (ballots ballots' : List Ballot) (t : HashTable Nat) (half : FloatHalves) (win : String)
    (hdistinct : candidates.keys.Nodup)
    (hrun : tallyRoundVotes ballots candidates = .ok (t, ballots'))
    (hwinner : ∃ e ∈ t.entries, exceedsHalf e.2 half = true) :
    ∃ pre loser c post e w,
      candidates.entries = pre ++ (loser, c) :: post ∧ c.eliminated = false ∧
      e ∈ t.entries ∧ exceedsHalf e.2 half = true ∧ candidates.get e.1 = some w ∧
      processRoundResults t candidates half win
        = .ok (⟨pre ++ (loser, { c with eliminated := true }) :: post⟩, w.name) := by
  have hne : t.entries ≠ [] := by
    obtain ⟨e, he, _⟩ := hwinner
    exact List.ne_nil_of_mem he
  obtain ⟨loser, candidates', win', hproc, _, ⟨pre, c, post, h1, h2, h3⟩, hwin⟩ :=
    processRoundResults_ok half win (tallyRoundVotes_tallyFor hdistinct hrun) hne
  rcases hwin with ⟨e, he, hex, w, hw, hwn⟩ | ⟨hall, _⟩
  · refine ⟨pre, loser, c, post, e, w, h1, h2, he, hex, hw, ?_⟩
    rw [hproc, hwn]
    cases candidates' with
    | mk entries => simp only at h3; rw [h3]
  · obtain ⟨e, he, hex⟩ := hwinner
    rw [hall e he] at hex; cases hex

theorem tallyRoundVotes_largeBallotsOf (n m : Nat) :
    ∃ ballots', tallyRoundVotes (largeBallotsOf n m) twoCandidates
      = .ok (⟨[("A", n), ("B", m)]⟩, ballots') := by
  have hmem : ∀ b ∈ largeBallotsOf n m, b = ⟨"A", "B", "B"⟩ ∨ b = ⟨"B", "A", "A"⟩ := by
    intro b hb
    rcases List.mem_append.1 hb with h | h
    · exact Or.inl (List.eq_of_mem_replicate h)
    · exact Or.inr (List.eq_of_mem_replicate h)
  have hreg : ∀ b ∈ largeBallotsOf n m, allRegistered twoCandidates b := by
    intro b hb
    rcases hmem b hb with rfl | rfl <;> decide
  have hact : ∀ b ∈ largeBallotsOf n m, isActive twoCandidates b.h = true ∨
      isActive twoCandidates b.s = true ∨ isActive twoCandidates b.t = true := by
    intro b hb
    rcases hmem b hb with rfl | rfl <;> decide
  obtain ⟨t, bs', hrun, hcount⟩ :=
    tallyRoundVotes_complete twoCandidates (largeBallotsOf n m) (by decide) hreg hact
  have hkeys : t.entries.map Prod.fst = ["A", "B"] :=
    (tallyBallots_ok (largeBallotsOf n m) _ _ _ hrun).2.1
  have hA := hcount "A" ⟨"A", "Ann", false⟩ (by decide) rfl
  have hB := hcount "B" ⟨"B", "Bob", false⟩ (by decide) rfl
  have fa1 : firstActive twoCandidates ⟨"A", "B", "B"⟩ = some "A" := rfl
  have fa2 : firstActive twoCandidates ⟨"B", "A", "A"⟩ = some "B" := rfl
  have cA : (largeBallotsOf n m).countP (fun b => firstActive twoCandidates b = some "A")
      = n := by
    simp [largeBallotsOf, List.countP_append, List.countP_replicate, fa1, fa2]
  have cB : (largeBallotsOf n m).countP (fun b => firstActive twoCandidates b = some "B")
      = m := by
    simp [largeBallotsOf, List.countP_append, List.countP_replicate, fa1, fa2]
  rw [cA] at hA
  rw [cB] at hB
  have hentries : t = ⟨[("A", n), ("B", m)]⟩ := by
    cases t with
    | mk entries =>
      simp only at hkeys
      match entries, hkeys with
      | [(k1, v1), (k2, v2)], hk =>
        simp only [List.map_cons, List.map_nil, List.cons.injEq, and_true] at hk
        obtain ⟨rfl, rfl⟩ := hk
        simp [HashTable.get, HashTable.lookup] at hA hB
        rw [hA, hB]
  exact ⟨bs', by rw [← hentries]; exact hrun⟩

theorem length_largeBallotsOf (n m : Nat) : (largeBallotsOf n m).length = n + m := by
  simp [largeBallotsOf]

/-- Below `2 ^ 24` ballots the majority test of `processRoundResults` is the
exact one: on a non-empty tally of `tallyRoundVotes` it sets `win` to the name
of a candidate with more than half of `totalBallots` when there is one, and
leaves `win` as it was when there is none. -/
theorem processRoundResults_winner_of_small (candidates : HashTable Candidate)
    (ballots ballots' : List Ballot) (t : HashTable Nat) (totalBallots : Nat) (win : String)
    (hdistinct : candidates.keys.Nodup) (hsmall : totalBallots < 2 ^ 24)
    (hrun : tallyRoundVotes ballots candidates = .ok (t, ballots'))
    (hne : t.entries ≠ []) :
    ∃ candidates' win',
      processRoundResults t candidates (halfOf totalBallots) win = .ok (candidates', win') ∧
      ((∃ e ∈ t.entries, totalBallots < 2 * e.2 ∧
          ∃ c, candidates.get e.1 = some c ∧ win' = c.name) ∨
        ((∀ e ∈ t.entries, 2 * e.2 ≤ totalBallots) ∧ win' = win)) := by
  obtain ⟨_, candidates', win', hproc, _, _, hwin⟩ :=
    processRoundResults_ok (halfOf totalBallots) win
      (tallyRoundVotes_tallyFor hdistinct hrun) hne
  refine ⟨candidates', win', hproc, ?_⟩
  rcases hwin with ⟨e, he, hex, hc⟩ | ⟨hall, hw⟩
  · exact Or.inl ⟨e, he, exceedsHalf_imp _ _ hex, hc⟩
  · refine Or.inr ⟨fun e he => ?_, hw⟩
    by_contra hcon
    have := (exceedsHalf_iff_of_small e.2 totalBallots hsmall).2 (by omega)
    rw [hall e he] at this
    cases this

/-- C3, at the failing input: with 16777219 ballots, 8388610 of them for A,
`tallyRoundVotes` counts 8388610 votes for A, which is more than half of
16777219, but `float(16777219)/2` is 8388610 and `processRoundResults` sets no
winner: it leaves `win` empty and eliminates B. -/
theorem processRoundResults_misses_majority :
    largeBallots.length = 16777219 ∧
    (∃ ballots', tallyRoundVotes largeBallots twoCandidates
      = .ok (⟨[("A", 8388610), ("B", 8388609)]⟩, ballots')) ∧
    16777219 < 2 * 8388610 ∧
    processRoundResults ⟨[("A", 8388610), ("B", 8388609)]⟩ twoCandidates
      (halfOf 16777219) ""
      = .ok (⟨[("A", ⟨"A", "Ann", false⟩), ("B", ⟨"B", "Bob", true⟩)]⟩, "") :=
  ⟨length_largeBallotsOf 8388610 8388609, tallyRoundVotes_largeBallotsOf 8388610 8388609,
    by decide, rfl⟩

/-! ## Lemmas on the election loop -/

theorem scanTally_error (t : HashTable Nat) (candidates : HashTable Candidate)
    (half : FloatHalves) (es : List (String × Nat)) :
    ∀ (loser win : String) (e : Failure),
      scanTally t candidates half es loser win = .error e → e = .nullDereference := by
  induction es with
  | nil => intro loser win e h; simp [scanTally] at h
  | cons cur rest ih =>
    intro loser win e h
    rw [scanTally] at h
    split at h
    · cases h; rfl
    · split at h
      · cases h
      · split at h
        · cases h; rfl
        · split at h
          · exact ih _ _ _ h
          · split at h
            · cases h; rfl
            · split at h
              · exact ih _ _ _ h
              · exact ih _ _ _ h

theorem processRoundResults_error (t : HashTable Nat) (candidates : HashTable Candidate)
    (half : FloatHalves) (win : String) (e : Failure)
    (h : processRoundResults t candidates half win = .error e) : e = .nullDereference := by
  unfold processRoundResults at h
  split at h
  · cases h; rfl
  · split at h
    · rename_i e' hscan
      cases h
      exact scanTally_error _ _ _ _ _ _ _ hscan
    · split at h
      · cases h; rfl
      · cases h

theorem eliminatesOne_activeCount {candidates candidates' : HashTable Candidate}
    {loser : String} (h : EliminatesOne candidates candidates' loser) :
    activeCount candidates' + 1 = activeCount candidates := by
  obtain ⟨pre, c, post, h1, h2, h3⟩ := h
  unfold activeCount
  rw [h1, h3]
  simp [List.countP_append, List.countP_cons, h2]
  omega

theorem eliminatesOne_keys {candidates candidates' : HashTable Candidate}
    {loser : String} (h : EliminatesOne candidates candidates' loser) :
    candidates'.keys = candidates.keys := by
  obtain ⟨pre, c, post, h1, _, h3⟩ := h
  unfold HashTable.keys
  rw [h1, h3]
  simp

theorem activeCount_le_length (candidates : HashTable Candidate) :
    activeCount candidates ≤ candidates.entries.length :=
  List.countP_le_length _

/-- A completed round: what `tallyRoundVotes` followed by `processRoundResults`
leaves when both end normally on a candidate table with distinct ids. -/
theorem round_ok {candidates candidates' : HashTable Candidate} {ballots ballots' : List Ballot}
    {t : HashTable Nat} {half : FloatHalves} {win win' : String}
    (hnd : candidates.keys.Nodup)
    (hrun : tallyRoundVotes ballots candidates = .ok (t, ballots'))
    (hproc : processRoundResults t candidates half win = .ok (candidates', win')) :
    candidates'.keys.Nodup ∧ activeCount candidates' + 1 = activeCount candidates ∧
      ((∃ e ∈ t.entries, exceedsHalf e.2 half = true ∧
          ∃ c, candidates.get e.1 = some c ∧ win' = c.name) ∨
        ((∀ e ∈ t.entries, exceedsHalf e.2 half = false) ∧ win' = win)) := by
  have hne : t.entries ≠ [] := by
    intro h
    simp [processRoundResults, h] at hproc
  obtain ⟨loser, c2, w2, hproc2, _, hel, hwin⟩ :=
    processRoundResults_ok half win (tallyRoundVotes_tallyFor hnd hrun) hne
  rw [hproc] at hproc2
  simp only [Except.ok.injEq, Prod.mk.injEq] at hproc2
  obtain ⟨rfl, rfl⟩ := hproc2
  exact ⟨by rw [eliminatesOne_keys hel]; exact hnd, eliminatesOne_activeCount hel, hwin⟩

/-- The election loop ends within the number of active candidates: with more
fuel than there are active candidates it finishes with a winner after at most
that many further rounds, or fails at most one round later. -/
theorem electionLoop_bounded (half : FloatHalves) :
    ∀ (fuel : Nat) (ballots : List Ballot) (candidates : HashTable Candidate) (roundNum : Nat)
      (tallies : List (HashTable Nat)),
      candidates.keys.Nodup → activeCount candidates < fuel →
      (∃ w c ts r, electionLoop half fuel ballots candidates roundNum "" tallies
          = .finished w r c ts ∧ w ≠ "" ∧ roundNum < r ∧ r ≤ roundNum + activeCount candidates) ∨
      (∃ f r, electionLoop half fuel ballots candidates roundNum "" tallies = .failed f r ∧
          f ≠ .outOfFuel ∧ roundNum < r ∧ r ≤ roundNum + activeCount candidates + 1) := by
  intro fuel
  induction fuel with
  | zero => intro _ _ _ _ _ h; omega
  | succ fuel ih =>
    intro ballots candidates roundNum tallies hnd hfuel
    cases hrun : tallyRoundVotes ballots candidates with
    | error e =>
      refine Or.inr ⟨e, roundNum + 1, by simp [electionLoop, hrun], ?_, by omega, by omega⟩
      intro he
      rw [he] at hrun
      exact tallyBallots_ne_outOfFuel _ _ hrun
    | ok res =>
      obtain ⟨t, ballots'⟩ := res
      cases hproc : processRoundResults t candidates half "" with
      | error e =>
        refine Or.inr ⟨e, roundNum + 1, by simp [electionLoop, hrun, hproc], ?_,
          by omega, by omega⟩
        rw [processRoundResults_error _ _ _ _ _ hproc]
        decide
      | ok res2 =>
        obtain ⟨candidates', win'⟩ := res2
        obtain ⟨hnd', hac, _⟩ := round_ok hnd hrun hproc
        rw [electionLoop_step half fuel ballots ballots' candidates candidates' roundNum
          win' tallies t hrun hproc]
        by_cases hw : win' = ""
        · subst hw
          rcases ih ballots' candidates' (roundNum + 1) (tallies ++ [t]) hnd' (by omega) with
            ⟨w, c, ts, r, h1, h2, h3, h4⟩ | ⟨f, r, h1, h2, h3, h4⟩
          · exact Or.inl ⟨w, c, ts, r, h1, h2, by omega, by omega⟩
          · exact Or.inr ⟨f, r, h1, h2, by omega, by omega⟩
        · rw [electionLoop_of_winner _ _ _ _ _ _ _ hw]
          exact Or.inl ⟨win', candidates', tallies ++ [t], roundNum + 1, rfl, hw,
            by omega, by omega⟩

/-- More fuel does not change a run that has ended. -/
theorem electionLoop_fuel_mono (half : FloatHalves) (k : Nat) :
    ∀ (fuel : Nat) (ballots : List Ballot) (candidates : HashTable Candidate) (roundNum : Nat)
      (winner : String) (tallies : List (HashTable Nat)),
      electionLoop half fuel ballots candidates roundNum winner tallies ≠ .outOfFuel →
      electionLoop half (fuel + k) ballots candidates roundNum winner tallies
        = electionLoop half fuel ballots candidates roundNum winner tallies := by
  intro fuel
  induction fuel with
  | zero =>
    intro ballots candidates roundNum winner tallies h
    have hw : winner ≠ "" := by
      intro hw
      simp [electionLoop, hw] at h
    rw [electionLoop_of_winner _ _ _ _ _ _ _ hw, electionLoop_of_winner _ _ _ _ _ _ _ hw]
  | succ fuel ih =>
    intro ballots candidates roundNum winner tallies h
    by_cases hw : winner = ""
    · subst hw
      have hk : fuel + 1 + k = fuel + k + 1 := by omega
      rw [hk]
      cases hrun : tallyRoundVotes ballots candidates with
      | error e => simp [electionLoop, hrun]
      | ok res =>
        obtain ⟨t, ballots'⟩ := res
        cases hproc : processRoundResults t candidates half "" with
        | error e => simp [electionLoop, hrun, hproc]
        | ok res2 =>
          obtain ⟨candidates', win'⟩ := res2
          rw [electionLoop_step half _ ballots ballots' candidates candidates' roundNum
            win' tallies t hrun hproc] at h ⊢
          rw [electionLoop_step half _ ballots ballots' candidates candidates' roundNum
            win' tallies t hrun hproc]
          exact ih _ _ _ _ _ h
    · rw [electionLoop_of_winner _ _ _ _ _ _ _ hw, electionLoop_of_winner _ _ _ _ _ _ _ hw]

theorem le_sum_of_mem_entries (l : List (String × Nat)) (e : String × Nat) (he : e ∈ l) :
    e.2 ≤ (l.map Prod.snd).sum := by
  induction l with
  | nil => simp at he
  | cons x xs ih =>
    rcases List.mem_cons.1 he with rfl | h
    · simp
    · have := ih h
      simp only [List.map_cons, List.sum_cons]
      omega

theorem add_le_sum_of_ne (l : List (String × Nat)) (e1 e2 : String × Nat)
    (h1 : e1 ∈ l) (h2 : e2 ∈ l) (hne : e1 ≠ e2) : e1.2 + e2.2 ≤ (l.map Prod.snd).sum := by
  induction l with
  | nil => simp at h1
  | cons x xs ih =>
    simp only [List.map_cons, List.sum_cons]
    rcases List.mem_cons.1 h1 with rfl | h1'
    · rcases List.mem_cons.1 h2 with rfl | h2'
      · exact absurd rfl hne
      · have := le_sum_of_mem_entries xs e2 h2'
        omega
    · rcases List.mem_cons.1 h2 with rfl | h2'
      · have := le_sum_of_mem_entries xs e1 h1'
        omega
      · have := ih h1' h2'
        omega

/-- In a tally of `tallyRoundVotes` at most one entry holds more than half of
the number of ballots. -/
theorem majority_unique {candidates : HashTable Candidate} {ballots ballots' : List Ballot}
    {t : HashTable Nat} (hrun : tallyRoundVotes ballots candidates = .ok (t, ballots'))
    (e1 e2 : String × Nat) (h1 : e1 ∈ t.entries) (h2 : e2 ∈ t.entries)
    (m1 : ballots.length < 2 * e1.2) (m2 : ballots.length < 2 * e2.2) : e1 = e2 := by
  by_contra hne
  have hsum := add_le_sum_of_ne t.entries e1 e2 h1 h2 hne
  obtain ⟨_, _, h3, _, _⟩ := tallyBallots_ok ballots _ _ _ hrun
  rw [totalVotes_seedTally] at h3
  unfold totalVotes at h3
  omega

/-! ## Claims on the election loop -/

/-- C9, counterexample: with candidates A and B and the two ballots that rank
A three times and B three times, round 1 is a tie that eliminates A, and round
2 stops with rank index 3 out of range: the loop ends without a winner. -/
theorem election_without_winner_example :
    runElection 2 twoCandidates exhaustedBallots = .failed .outOfRange 2 ∧
      ∀ fuel, runElection (fuel + 2) twoCandidates exhaustedBallots
        = .failed .outOfRange 2 := by
  have h : runElection 2 twoCandidates exhaustedBallots = .failed .outOfRange 2 := by decide
  refine ⟨h, fun fuel => ?_⟩
  have := electionLoop_fuel_mono (halfOf exhaustedBallots.length) fuel 2 exhaustedBallots
    twoCandidates 0 "" [] (by rw [show electionLoop (halfOf exhaustedBallots.length) 2
      exhaustedBallots twoCandidates 0 "" [] = .failed .outOfRange 2 from h]; decide)
  unfold runElection
  rw [show fuel + 2 = 2 + fuel from by omega, this]
  exact h

/-- C9, amended: for a candidate table with distinct ids and any ballot list
the election loop of `main` ends: given more rounds than there are registered
candidates it gives one and the same result, which is a winner after at most
as many rounds as there are registered candidates, or a failure (a null
dereference or a rank index out of range) at most one round later. -/
theorem election_terminates (candidates : HashTable Candidate) (ballots : List Ballot)
    (fuel : Nat) (hdistinct : candidates.keys.Nodup)
    (hfuel : candidates.entries.length < fuel) :
    runElection fuel candidates ballots
        = runElection (candidates.entries.length + 1) candidates ballots ∧
      ((∃ w c ts r, runElection fuel candidates ballots = .finished w r c ts ∧ w ≠ "" ∧
          1 ≤ r ∧ r ≤ candidates.entries.length) ∨
        (∃ f r, runElection fuel candidates ballots = .failed f r ∧
          (f = .nullDereference ∨ f = .outOfRange) ∧
          1 ≤ r ∧ r ≤ candidates.entries.length + 1)) := by
  have hac := activeCount_le_length candidates
  have hne : ∀ fuel', candidates.entries.length < fuel' →
      runElection fuel' candidates ballots ≠ .outOfFuel := by
    intro fuel' hf
    unfold runElection
    rcases electionLoop_bounded (halfOf ballots.length) fuel' ballots candidates 0 []
      hdistinct (by omega) with ⟨w, c, ts, r, h1, _⟩ | ⟨f, r, h1, _⟩ <;> rw [h1] <;> simp
  constructor
  · have := electionLoop_fuel_mono (halfOf ballots.length)
      (fuel - (candidates.entries.length + 1)) (candidates.entries.length + 1)
      ballots candidates 0 "" [] (hne _ (by omega))
    unfold runElection
    rw [← this]
    congr 1
    omega
  · unfold runElection
    rcases electionLoop_bounded (halfOf ballots.length) fuel ballots candidates 0 []
      hdistinct (by omega) with ⟨w, c, ts, r, h1, h2, h3, h4⟩ | ⟨f, r, h1, h2, h3, h4⟩
    · exact Or.inl ⟨w, c, ts, r, h1, h2, by omega, by omega⟩
    · refine Or.inr ⟨f, r, h1, ?_, by omega, by omega⟩
      cases f with
      | nullDereference => exact Or.inl rfl
      | outOfRange => exact Or.inr rfl
      | outOfFuel => exact absurd rfl h2

/-- C10, counterexample: the candidate A, whose name is the empty string, has
all 3 of 3 votes in round 1, yet the loop does not stop there: it runs rounds
2 and 3 and ends in round 3 with rank index 3 out of range, reporting no
winner. -/
theorem election_empty_name_example :
    tallyRoundVotes unnamedBallots unnamedCandidates
        = .ok (⟨[("A", 3), ("B", 0)]⟩, unnamedBallots) ∧
      unnamedBallots.length < 2 * 3 ∧
      runElection 3 unnamedCandidates unnamedBallots = .failed .outOfRange 3 :=
  ⟨rfl, by decide, by decide⟩

/-- C10, amended: with distinct ids and fewer than `2 ^ 24` ballots, a round
whose tally holds a candidate with more than half of the ballots and a name
that is not empty ends the loop: the run finishes at the end of that round,
whatever rounds remain, with that name as the winner. When the name of that
candidate is the empty string, or when no candidate has more than half of the
ballots, the loop goes on to the next round with an empty `winner`. The round
keeps the number of ballots, so the same holds of the next round. -/
theorem election_stops_at_majority (candidates : HashTable Candidate)
    (ballots ballots' : List Ballot) (t : HashTable Nat) (fuel roundNum : Nat)
    (tallies : List (HashTable Nat))
    (hdistinct : candidates.keys.Nodup) (hsmall : ballots.length < 2 ^ 24)
    (hrun : tallyRoundVotes ballots candidates = .ok (t, ballots'))
    (hne : t.entries ≠ []) :
    ballots'.length = ballots.length ∧
    (∀ k v c, (k, v) ∈ t.entries → ballots.length < 2 * v → candidates.get k = some c →
      c.name ≠ "" →
      ∃ candidates', electionLoop (halfOf ballots.length) (fuel + 1) ballots candidates
        roundNum "" tallies = .finished c.name (roundNum + 1) candidates' (tallies ++ [t])) ∧
    (∀ k v c, (k, v) ∈ t.entries → ballots.length < 2 * v → candidates.get k = some c →
      c.name = "" →
      ∃ candidates', electionLoop (halfOf ballots.length) (fuel + 1) ballots candidates
        roundNum "" tallies = electionLoop (halfOf ballots.length) fuel ballots' candidates'
          (roundNum + 1) "" (tallies ++ [t])) ∧
    ((∀ e ∈ t.entries, 2 * e.2 ≤ ballots.length) →
      ∃ candidates', electionLoop (halfOf ballots.length) (fuel + 1) ballots candidates
        roundNum "" tallies = electionLoop (halfOf ballots.length) fuel ballots' candidates'
          (roundNum + 1) "" (tallies ++ [t])) := by
  obtain ⟨loser, candidates', win', hproc, _, _, hwin⟩ :=
    processRoundResults_ok (halfOf ballots.length) "" (tallyRoundVotes_tallyFor hdistinct hrun) hne
  have hstep := electionLoop_step (halfOf ballots.length) fuel ballots ballots' candidates
    candidates' roundNum win' tallies t hrun hproc
  have hmaj : ∀ k v c, (k, v) ∈ t.entries → ballots.length < 2 * v →
      candidates.get k = some c → win' = c.name := by
    intro k v c hmem hv hc
    rcases hwin with ⟨e, he, hex, c', hc', hw⟩ | ⟨hall, _⟩
    · have := majority_unique hrun e (k, v) he hmem (exceedsHalf_imp _ _ hex) hv
      subst this
      rw [hc] at hc'
      cases hc'
      exact hw
    · have := hall (k, v) hmem
      rw [(exceedsHalf_iff_of_small v _ hsmall).2 hv] at this
      cases this
  refine ⟨(tallyBallots_ok ballots _ _ _ hrun).2.2.2.2.length_eq.symm,
    fun k v c hmem hv hc hname => ⟨candidates', ?_⟩,
    fun k v c hmem hv hc hname => ⟨candidates', ?_⟩, fun hno => ⟨candidates', ?_⟩⟩
  · rw [hstep, hmaj k v c hmem hv hc, electionLoop_of_winner _ _ _ _ _ _ _ hname]
  · rw [hstep, hmaj k v c hmem hv hc, hname]
  · rw [hstep]
    rcases hwin with ⟨e, he, hex, _⟩ | ⟨_, hw⟩
    · have := exceedsHalf_imp _ _ hex
      have := hno e he
      omega
    · rw [hw]

/-! ## Claims on the shape of the tally and on the winner -/

/-- C14: with distinct ids, the keys of a tally that `tallyRoundVotes` returns
are the ids of the candidates that are not eliminated, in the order of the
candidate table, each of them once. -/
theorem tallyRoundVotes_keys (candidates : HashTable Candidate) (ballots ballots' : List Ballot)
    (t : HashTable Nat) (hdistinct : candidates.keys.Nodup)
    (hrun : tallyRoundVotes ballots candidates = .ok (t, ballots')) :
    t.keys = (candidates.entries.filter (fun e => !e.2.eliminated)).map Prod.fst ∧
      t.keys.Nodup := by
  have hk : t.keys = (seedTally candidates).keys := (tallyBallots_ok ballots _ _ _ hrun).2.1
  have hs : (seedTally candidates).keys
      = (candidates.entries.filter (fun e => !e.2.eliminated)).map Prod.fst := by
    unfold HashTable.keys
    rw [seedTally_entries candidates hdistinct]
    simp [seedEntries, List.map_map, Function.comp_def]
  refine ⟨hk.trans hs, ?_⟩
  rw [hk]
  unfold HashTable.keys
  rw [seedTally_entries candidates hdistinct]
  exact seedEntries_nodup _ hdistinct

theorem find?_eq_reverse_find? {α : Type} (p : α → Bool) (l : List α)
    (h : ∀ a ∈ l, ∀ b ∈ l, p a = true → p b = true → a = b) :
    l.find? p = l.reverse.find? p := by
  cases h1 : l.find? p with
  | none =>
    symm
    rw [List.find?_eq_none] at h1 ⊢
    intro x hx
    exact h1 x (List.mem_reverse.1 hx)
  | some a =>
    have ha : a ∈ l := List.mem_of_find?_eq_some h1
    have hpa : p a = true := List.find?_some h1
    cases h2 : l.reverse.find? p with
    | none =>
      rw [List.find?_eq_none] at h2
      exact absurd hpa (h2 a (List.mem_reverse.2 ha))
    | some b =>
      have hb : b ∈ l := List.mem_reverse.1 (List.mem_of_find?_eq_some h2)
      have hpb : p b = true := List.find?_some h2
      rw [h a ha b hb hpa hpb]

/-- C16: in a tally that `tallyRoundVotes` returns for `n` ballots at most one
candidate has more than `n / 2` votes; the first and the last entry that pass
the majority test of `processRoundResults` are therefore the same, and the
winner that `processRoundResults` sets is the name of that candidate. -/
theorem majority_candidate_unique (candidates : HashTable Candidate)
    (ballots ballots' : List Ballot) (t : HashTable Nat)
    (hrun : tallyRoundVotes ballots candidates = .ok (t, ballots')) :
    (∀ e1 ∈ t.entries, ∀ e2 ∈ t.entries,
      ballots.length < 2 * e1.2 → ballots.length < 2 * e2.2 → e1 = e2) ∧
    t.entries.find? (fun e => exceedsHalf e.2 (halfOf ballots.length))
      = t.entries.reverse.find? (fun e => exceedsHalf e.2 (halfOf ballots.length)) ∧
    (candidates.keys.Nodup → ∀ win candidates' win',
      processRoundResults t candidates (halfOf ballots.length) win = .ok (candidates', win') →
      ∀ e, t.entries.find? (fun e => exceedsHalf e.2 (halfOf ballots.length)) = some e →
        ∃ c, candidates.get e.1 = some c ∧ win' = c.name) := by
  have huniq : ∀ e1 ∈ t.entries, ∀ e2 ∈ t.entries,
      ballots.length < 2 * e1.2 → ballots.length < 2 * e2.2 → e1 = e2 :=
    fun e1 h1 e2 h2 m1 m2 => majority_unique hrun e1 e2 h1 h2 m1 m2
  refine ⟨huniq, ?_, ?_⟩
  · apply find?_eq_reverse_find?
    intro a ha b hb pa pb
    exact huniq a ha b hb (exceedsHalf_imp _ _ pa) (exceedsHalf_imp _ _ pb)
  · intro hnd win candidates' win' hproc e he
    have hmem : e ∈ t.entries := List.mem_of_find?_eq_some he
    have hpe := List.find?_some he
    simp only at hpe
    obtain ⟨_, c2, w2, hproc2, _, _, hwin⟩ :=
      processRoundResults_ok (halfOf ballots.length) win (tallyRoundVotes_tallyFor hnd hrun)
        (List.ne_nil_of_mem hmem)
    rw [hproc] at hproc2
    simp only [Except.ok.injEq, Prod.mk.injEq] at hproc2
    obtain ⟨_, rfl⟩ := hproc2
    rcases hwin with ⟨e', he', hex, c, hc, hw⟩ | ⟨hall, _⟩
    · have := huniq e' he' e hmem (exceedsHalf_imp _ _ hex) (exceedsHalf_imp _ _ hpe)
      subst this
      exact ⟨c, hc, hw⟩
    · rw [hall e hmem] at hpe; cases hpe

/-- C18, at the failing input: candidates A (Ann) and B (Bob) with one ballot
each. Round 1 is a tie and eliminates A; round 2 tallies B=2, declares Bob the
winner and, B being the first and only entry of the tally, eliminates B: the
run ends with winner Bob and B marked eliminated. -/
theorem winner_eliminated_example :
    tallyRoundVotes tieBallots twoCandidates
        = .ok (⟨[("A", 1), ("B", 1)]⟩, tieBallots) ∧
      runElection 2 twoCandidates tieBallots
        = .finished "Bob" 2 tieCandidatesEnd [⟨[("A", 1), ("B", 1)]⟩, ⟨[("B", 2)]⟩] ∧
      tieCandidatesEnd.get "B" = some ⟨"B", "Bob", true⟩ :=
  ⟨rfl, by decide, rfl⟩

/-! ## Claims on the ballot loader -/

theorem populateBallots_fold (xmlBallots : List (List Vote)) :
    ∀ acc : List Ballot,
      xmlBallots.foldl (fun bList xmlBallot => bList ++ [readVotes xmlBallot "" "" ""]) acc
        = acc ++ xmlBallots.map (fun xmlBallot => readVotes xmlBallot "" "" "") := by
  induction xmlBallots with
  | nil => intro acc; simp
  | cons r rs ih => intro acc; simp [List.foldl_cons, ih]

/-- The loader turns every `ballot` element into one ballot, in order. -/
theorem populateBallots_eq_map (xmlBallots : List (List Vote)) :
    populateBallotsListFromFile xmlBallots
      = xmlBallots.map (fun xmlBallot => readVotes xmlBallot "" "" "") := by
  unfold populateBallotsListFromFile
  rw [populateBallots_fold]
  simp

theorem readVotes_h (votes : List Vote) :
    ∀ id1 id2 id3, (∀ v ∈ votes, v.rank ≠ 1) → (readVotes votes id1 id2 id3).h = id1 := by
  induction votes with
  | nil => intro _ _ _ _; rfl
  | cons v vs ih =>
    intro id1 id2 id3 h
    have hv := h v (List.mem_cons_self _ _)
    have hvs : ∀ w ∈ vs, w.rank ≠ 1 := fun w hw => h w (List.mem_cons_of_mem _ hw)
    simp only [readVotes, if_neg hv]
    split
    · exact ih _ _ _ hvs
    · split
      · exact ih _ _ _ hvs
      · exact ih _ _ _ hvs

theorem readVotes_s (votes : List Vote) :
    ∀ id1 id2 id3, (∀ v ∈ votes, v.rank ≠ 2) → (readVotes votes id1 id2 id3).s = id2 := by
  induction votes with
  | nil => intro _ _ _ _; rfl
  | cons v vs ih =>
    intro id1 id2 id3 h
    have hv := h v (List.mem_cons_self _ _)
    have hvs : ∀ w ∈ vs, w.rank ≠ 2 := fun w hw => h w (List.mem_cons_of_mem _ hw)
    simp only [readVotes, if_neg hv]
    split
    · exact ih _ _ _ hvs
    · split
      · exact ih _ _ _ hvs
      · exact ih _ _ _ hvs

theorem readVotes_t (votes : List Vote) :
    ∀ id1 id2 id3, (∀ v ∈ votes, v.rank ≠ 3) → (readVotes votes id1 id2 id3).t = id3 := by
  induction votes with
  | nil => intro _ _ _ _; rfl
  | cons v vs ih =>
    intro id1 id2 id3 h
    have hv := h v (List.mem_cons_self _ _)
    have hvs : ∀ w ∈ vs, w.rank ≠ 3 := fun w hw => h w (List.mem_cons_of_mem _ hw)
    simp only [readVotes, if_neg hv]
    split
    · exact ih _ _ _ hvs
    · split
      · exact ih _ _ _ hvs
      · exact ih _ _ _ hvs

theorem isSome_get_modify {α : Type} (t : HashTable α) (k k' : String) (f : α → α) :
    ((t.modify k f).get k').isSome = (t.get k').isSome := by
  rw [HashTable.get_modify]
  split
  · rename_i h; subst h
    cases t.get k' <;> rfl
  · rfl

/-- The ballot loop of `tallyRoundVotes` completes exactly when the `while`
loop ends normally on every ballot and leaves at position 0 a key of the
tally. -/
theorem tallyBallots_isOk_iff {candidates : HashTable Candidate} :
    ∀ (bs : List Ballot) (t : HashTable Nat),
      (∃ r, tallyBallots candidates bs t = .ok r) ↔
        ∀ b ∈ bs, ∃ b', skipEliminated candidates 4 1 b = .ok b' ∧
          (t.get b'.h).isSome = true := by
  intro bs
  induction bs with
  | nil => intro t; simp [tallyBallots]
  | cons b rest ih =>
    intro t
    rw [tallyBallots]
    cases hs : skipEliminated candidates 4 1 b with
    | error e =>
      constructor
      · intro h; obtain ⟨r, hr⟩ := h; cases hr
      · intro h
        obtain ⟨b', hb', _⟩ := h b (List.mem_cons_self _ _)
        rw [hs] at hb'; cases hb'
    | ok b1 =>
      simp only [Ballot.getHighestRankedCandidate]
      cases hg : t.get b1.h with
      | none =>
        constructor
        · intro h; obtain ⟨r, hr⟩ := h; cases hr
        · intro h
          obtain ⟨b', hb', hsome⟩ := h b (List.mem_cons_self _ _)
          rw [hs] at hb'
          cases hb'
          rw [hg] at hsome; cases hsome
      | some v =>
        have hrest := ih (t.modify b1.h (fun n => n + 1))
        simp only [isSome_get_modify] at hrest
        simp only
        constructor
        · intro hok b' hb'
          rcases List.mem_cons.1 hb' with rfl | hb'
          · exact ⟨b1, hs, by rw [hg]; rfl⟩
          · apply hrest.1 _ b' hb'
            cases hr : tallyBallots candidates rest (t.modify b1.h (fun n => n + 1)) with
            | error e => rw [hr] at hok; obtain ⟨r, hr'⟩ := hok; cases hr'
            | ok r => exact ⟨r, rfl⟩
        · intro h
          obtain ⟨r, hr⟩ := hrest.2 (fun b' hb' => h b' (List.mem_cons_of_mem _ hb'))
          rw [hr]
          exact ⟨_, rfl⟩

/-- A ballot whose position 0 holds an unregistered id stops the `while` loop
with a null dereference. -/
theorem skipEliminated_of_unregistered {candidates : HashTable Candidate} {b : Ballot}
    (h : candidates.get b.h = none) :
    skipEliminated candidates 4 1 b = .error .nullDereference := by
  simp [skipEliminated, Ballot.getHighestRankedCandidate, h]

/-- C12, counterexample: the record that ranks the unregistered id X second is
loaded like any other: it is in the ballot list, `totalBallots` is 2, and
round 1 counts it for A. -/
theorem unregistered_ballot_example :
    populateBallotsListFromFile unregisteredRecords = [⟨"A", "X", "B"⟩, ⟨"B", "A", "A"⟩] ∧
      twoCandidates.get "X" = none ∧
      (populateBallotsListFromFile unregisteredRecords).length = 2 ∧
      tallyRoundVotes (populateBallotsListFromFile unregisteredRecords) twoCandidates
        = .ok (⟨[("A", 1), ("B", 1)]⟩, [⟨"A", "X", "B"⟩, ⟨"B", "A", "A"⟩]) :=
  ⟨rfl, rfl, rfl, rfl⟩

/-- C12, amended: a ballot that ranks an unregistered id is not dropped. The
loader appends one ballot for every record, so the size of the ballot list,
`totalBallots`, is the number of records; a round that completes has counted
every ballot of the list for a candidate; and `tallyRoundVotes` fails, with no
tally, whenever some ballot has an unregistered id at rank position 0. -/
theorem unregistered_ballot_not_dropped (xmlBallots : List (List Vote))
    (candidates : HashTable Candidate) :
    (populateBallotsListFromFile xmlBallots).length = xmlBallots.length ∧
    (∀ t ballots', tallyRoundVotes (populateBallotsListFromFile xmlBallots) candidates
        = .ok (t, ballots') → totalVotes t = xmlBallots.length) ∧
    (∀ b ∈ populateBallotsListFromFile xmlBallots, candidates.get b.h = none →
      ∃ e, tallyRoundVotes (populateBallotsListFromFile xmlBallots) candidates
        = .error e) := by
  have hlen : (populateBallotsListFromFile xmlBallots).length = xmlBallots.length := by
    rw [populateBallots_eq_map]; simp
  refine ⟨hlen, ?_, ?_⟩
  · intro t ballots' hrun
    obtain ⟨_, _, h3, _, _⟩ := tallyBallots_ok _ _ _ _ hrun
    rw [h3, totalVotes_seedTally, hlen]
    simp
  · intro b hb hnone
    cases hrun : tallyRoundVotes (populateBallotsListFromFile xmlBallots) candidates with
    | error e => exact ⟨e, rfl⟩
    | ok r =>
      exfalso
      obtain ⟨b', hb', _⟩ := (tallyBallots_isOk_iff _ _).1 ⟨r, hrun⟩ b hb
      rw [skipEliminated_of_unregistered hnone] at hb'
      cases hb'

/-- C13, counterexample: the record with only the ranks 1 and 2 is loaded as
the ballot with the empty string at rank position 2; the ballot list has 2
ballots. -/
theorem short_record_example :
    populateBallotsListFromFile shortRecords = [⟨"A", "B", ""⟩, ⟨"B", "A", "A"⟩] ∧
      (populateBallotsListFromFile shortRecords).length = 2 :=
  ⟨rfl, rfl⟩

/-- C13, amended: the loader appends one ballot for every record, whatever
ranked entries the record supplies: the ballot list keeps the order of the
records and has their number as its size, and a rank that a record does not
supply leaves the empty string at that position of its ballot. -/
theorem populateBallots_keeps_every_record (pre post : List (List Vote)) (r : List Vote) :
    populateBallotsListFromFile (pre ++ r :: post)
        = populateBallotsListFromFile pre ++ readVotes r "" "" "" ::
          populateBallotsListFromFile post ∧
      (populateBallotsListFromFile (pre ++ r :: post)).length
        = pre.length + 1 + post.length ∧
      ((∀ v ∈ r, v.rank ≠ 1) → (readVotes r "" "" "").h = "") ∧
      ((∀ v ∈ r, v.rank ≠ 2) → (readVotes r "" "" "").s = "") ∧
      ((∀ v ∈ r, v.rank ≠ 3) → (readVotes r "" "" "").t = "") := by
  refine ⟨?_, ?_, readVotes_h r _ _ _, readVotes_s r _ _ _, readVotes_t r _ _ _⟩
  · simp [populateBallots_eq_map]
  · simp [populateBallots_eq_map]; omega

/-! ## Claims on the last remaining candidate and on ballot order -/

theorem intToFloat_pos (n : Nat) (h : 0 < n) : 0 < intToFloat n := by
  by_cases hn : n < 2 ^ 24
  · rw [intToFloat_small n hn]; exact h
  · obtain ⟨_, q1, _⟩ := floatShift_spec n (not_lt.1 hn)
    obtain ⟨b1, _⟩ := intToFloat_bounds n
    have h2 : 0 < 2 ^ floatShift n n := Nat.pos_pow_of_pos _ (by norm_num)
    have h3 : 0 < n / 2 ^ floatShift n n := lt_of_lt_of_le (by norm_num) q1
    exact lt_of_lt_of_le (Nat.mul_pos h3 h2) b1

/-- A count that is the whole of a positive number of ballots passes the
majority test, whatever the size. -/
theorem exceedsHalf_self (n : Nat) (h : 0 < n) : exceedsHalf n (halfOf n) = true := by
  have := intToFloat_pos n h
  simp only [exceedsHalf, halfOf, decide_eq_true_eq]
  omega

/-- C11, counterexample: with the single candidate A and no ballots, the round
tallies A=0, which does not exceed `float(0)/2`: `processRoundResults` declares
no winner and eliminates A. -/
theorem sole_candidate_no_ballots_example :
    tallyRoundVotes [] oneCandidate = .ok (⟨[("A", 0)]⟩, []) ∧
      processRoundResults ⟨[("A", 0)]⟩ oneCandidate (halfOf 0) ""
        = .ok (⟨[("A", ⟨"A", "Ann", true⟩)]⟩, "") :=
  ⟨rfl, rfl⟩

/-- C11, amended: for a candidate table with distinct ids in which exactly
one candidate is not eliminated, and a ballot list that is not empty and
whose ballots rank registered ids only and each rank that candidate, the round
tallies all ballots for that candidate and `processRoundResults` sets `win` to
its name. -/
theorem sole_candidate_wins (candidates : HashTable Candidate) (ballots : List Ballot)
    (k : String) (c : Candidate) (win : String)
    (hdistinct : candidates.keys.Nodup)
    (hone : candidates.entries.filter (fun e => !e.2.eliminated) = [(k, c)])
    (hne : ballots ≠ [])
    (hreg : ∀ b ∈ ballots, allRegistered candidates b)
    (hranked : ∀ b ∈ ballots, b.h = k ∨ b.s = k ∨ b.t = k) :
    ∃ ballots' candidates',
      tallyRoundVotes ballots candidates = .ok (⟨[(k, ballots.length)]⟩, ballots') ∧
      processRoundResults ⟨[(k, ballots.length)]⟩ candidates (halfOf ballots.length) win
        = .ok (candidates', c.name) := by
  have hmem : (k, c) ∈ candidates.entries.filter (fun e => !e.2.eliminated) := by
    rw [hone]; exact List.mem_singleton.2 rfl
  obtain ⟨hmem1, hmem2⟩ := List.mem_filter.1 hmem
  have hce : c.eliminated = false := by simpa using hmem2
  have hget : candidates.get k = some c := HashTable.lookup_of_mem k c _ hdistinct hmem1
  have hk : isActive candidates k = true := (isActive_iff _ _).2 ⟨c, hget, hce⟩
  have honly : ∀ k', isActive candidates k' = true → k' = k := by
    intro k' hk'
    obtain ⟨c', hc', hce'⟩ := (isActive_iff _ _).1 hk'
    have h1 : (k', c') ∈ candidates.entries.filter (fun e => !e.2.eliminated) :=
      List.mem_filter.2 ⟨HashTable.mem_of_lookup _ _ _ hc', by simp [hce']⟩
    rw [hone] at h1
    exact (Prod.mk.inj (List.mem_singleton.1 h1)).1
  have hfa : ∀ b ∈ ballots, firstActive candidates b = some k := by
    intro b hb
    rw [firstActive_eq]
    by_cases h1 : isActive candidates b.h = true
    · rw [if_pos h1, honly _ h1]
    · by_cases h2 : isActive candidates b.s = true
      · rw [if_neg h1, if_pos h2, honly _ h2]
      · by_cases h3 : isActive candidates b.t = true
        · rw [if_neg h1, if_neg h2, if_pos h3, honly _ h3]
        · exfalso
          rcases hranked b hb with h | h | h
          · rw [h] at h1; exact h1 hk
          · rw [h] at h2; exact h2 hk
          · rw [h] at h3; exact h3 hk
  obtain ⟨t, ballots', hrun⟩ := tallyBallots_complete ballots (seedTally candidates) hreg
    (fun b hb => by rw [hfa b hb]; simp)
    (fun k' hk' => by rw [seedTally_get_of_active candidates hdistinct k' hk']; rfl)
  obtain ⟨hcount, hkeys, _, _, _⟩ := tallyBallots_ok ballots _ _ _ hrun
  have hcnt : ballots.countP (fun b => firstActive candidates b = some k) = ballots.length := by
    rw [List.countP_eq_length]
    intro b hb
    simp [hfa b hb]
  have hgetk : t.get k = some ballots.length := by
    rw [hcount k, seedTally_get_of_active candidates hdistinct k hk, hcnt]
    simp
  have hkeys' : t.entries.map Prod.fst = [k] := by
    have : t.keys = (seedTally candidates).keys := hkeys
    unfold HashTable.keys at this
    rw [this, seedTally_entries candidates hdistinct]
    simp [seedEntries, hone]
  have hentries : t = ⟨[(k, ballots.length)]⟩ := by
    cases t with
    | mk entries =>
      simp only at hkeys'
      match entries, hkeys' with
      | [(k1, v1)], hk1 =>
        simp only [List.map_cons, List.map_nil, List.cons.injEq, and_true] at hk1
        subst hk1
        simp [HashTable.get, HashTable.lookup] at hgetk
        rw [hgetk]
  have hrun' : tallyRoundVotes ballots candidates = .ok (⟨[(k, ballots.length)]⟩, ballots') := by
    rw [← hentries]; exact hrun
  obtain ⟨_, candidates', win', hproc, _, _, hwin⟩ :=
    processRoundResults_ok (halfOf ballots.length) win
      (tallyRoundVotes_tallyFor hdistinct hrun') (by simp)
  refine ⟨ballots', candidates', hrun', ?_⟩
  rw [hproc]
  rcases hwin with ⟨e, he, _, c', hc', hw⟩ | ⟨hall, _⟩
  · simp only [List.mem_singleton] at he
    subst he
    simp only at hc'
    rw [hget] at hc'
    cases hc'
    rw [hw]
  · have h1 := hall (k, ballots.length) (by simp)
    have hpos : 0 < ballots.length := List.length_pos.2 hne
    rw [exceedsHalf_self _ hpos] at h1
    cases h1

theorem keys_insertEntry {α : Type} (k : String) (v : α) (es : List (String × α)) :
    (HashTable.insertEntry k v es).map Prod.fst
      = if k ∈ es.map Prod.fst then es.map Prod.fst else es.map Prod.fst ++ [k] := by
  induction es with
  | nil => simp [HashTable.insertEntry]
  | cons e es ih =>
    by_cases h1 : e.1 = k
    · simp [HashTable.insertEntry, h1]
    · have h2 : ¬ k = e.1 := fun h => h1 h.symm
      simp only [HashTable.insertEntry, if_neg h1, List.map_cons, List.mem_cons, h2, false_or, ih]
      split <;> simp

theorem nodup_keys_insertEntry {α : Type} (k : String) (v : α) (es : List (String × α))
    (h : (es.map Prod.fst).Nodup) : ((HashTable.insertEntry k v es).map Prod.fst).Nodup := by
  rw [keys_insertEntry]
  split
  · exact h
  · rename_i hk
    exact List.Nodup.append h (List.nodup_singleton k) (by
      intro x hx hx'
      rw [List.mem_singleton] at hx'
      subst hx'
      exact hk hx)

theorem seedTally_fold_nodup (es : List (String × Candidate)) :
    ∀ acc : HashTable Nat, acc.keys.Nodup →
      (es.foldl (fun tally e => if e.2.getEliminated then tally else tally.add e.1 0)
        acc).keys.Nodup := by
  induction es with
  | nil => intro acc h; simpa using h
  | cons e0 es ih =>
    intro acc h
    rw [List.foldl_cons]
    apply ih
    split
    · exact h
    · exact nodup_keys_insertEntry _ _ _ h

/-- The keys of the seeded tally are distinct, whatever the candidate table. -/
theorem seedTally_keys_nodup (candidates : HashTable Candidate) :
    (seedTally candidates).keys.Nodup :=
  seedTally_fold_nodup candidates.entries HashTable.empty (by simp [HashTable.empty, HashTable.keys])

theorem entries_ext {α : Type} :
    ∀ (es1 es2 : List (String × α)), es1.map Prod.fst = es2.map Prod.fst →
      (es1.map Prod.fst).Nodup →
      (∀ k, HashTable.lookup k es1 = HashTable.lookup k es2) → es1 = es2 := by
  intro es1
  induction es1 with
  | nil =>
    intro es2 hk _ _
    cases es2 with
    | nil => rfl
    | cons e r => simp at hk
  | cons e1 r1 ih =>
    intro es2 hk hnd hl
    cases es2 with
    | nil => simp at hk
    | cons e2 r2 =>
      simp only [List.map_cons, List.cons.injEq] at hk
      simp only [List.map_cons, List.nodup_cons] at hnd
      obtain ⟨hk1, hk2⟩ := hk
      have hv := hl e1.1
      simp only [HashTable.lookup, if_true, ← hk1, Option.some.injEq] at hv
      have he : e1 = e2 := Prod.ext hk1 hv
      subst he
      congr 1
      apply ih r2 hk2 hnd.2
      intro k
      by_cases hkk : e1.1 = k
      · subst hkk
        rw [(HashTable.lookup_eq_none_iff _ _).2 hnd.1,
          (HashTable.lookup_eq_none_iff _ _).2 (by rw [← hk2]; exact hnd.1)]
      · have := hl k
        simpa [HashTable.lookup, hkk] using this

/-- C17: on two ballot lists that are permutations of each other
`tallyRoundVotes` fails on both or returns the same tally on both, with the
same keys in the same order and the same counts; `processRoundResults` then
gives the same winner and eliminates the same candidate. -/
theorem tallyRoundVotes_perm (candidates : HashTable Candidate) (ballots1 ballots2 : List Ballot)
    (hperm : ballots1.Perm ballots2) :
    ((∃ e1 e2, tallyRoundVotes ballots1 candidates = .error e1 ∧
        tallyRoundVotes ballots2 candidates = .error e2) ∨
      (∃ t b1 b2, tallyRoundVotes ballots1 candidates = .ok (t, b1) ∧
        tallyRoundVotes ballots2 candidates = .ok (t, b2))) ∧
    (∀ t1 b1 t2 b2 win, tallyRoundVotes ballots1 candidates = .ok (t1, b1) →
      tallyRoundVotes ballots2 candidates = .ok (t2, b2) →
      processRoundResults t1 candidates (halfOf ballots1.length) win
        = processRoundResults t2 candidates (halfOf ballots2.length) win) := by
  have hsame : ∀ t1 b1 t2 b2, tallyRoundVotes ballots1 candidates = .ok (t1, b1) →
      tallyRoundVotes ballots2 candidates = .ok (t2, b2) → t1 = t2 := by
    intro t1 b1 t2 b2 h1 h2
    obtain ⟨c1, k1, _, _, _⟩ := tallyBallots_ok ballots1 _ _ _ h1
    obtain ⟨c2, k2, _, _, _⟩ := tallyBallots_ok ballots2 _ _ _ h2
    have hent : t1.entries = t2.entries := by
      apply entries_ext
      · exact k1.trans k2.symm
      · have : t1.keys.Nodup := by rw [k1]; exact seedTally_keys_nodup candidates
        exact this
      · intro k
        have e1 := c1 k
        have e2 := c2 k
        unfold HashTable.get at e1 e2
        rw [e1, e2, hperm.countP_eq]
    cases t1; cases t2
    simp only at hent
    rw [hent]
  constructor
  · cases h1 : tallyRoundVotes ballots1 candidates with
    | error e1 =>
      cases h2 : tallyRoundVotes ballots2 candidates with
      | error e2 => exact Or.inl ⟨e1, e2, rfl, rfl⟩
      | ok r2 =>
        exfalso
        have hok := (tallyBallots_isOk_iff ballots2 (seedTally candidates)).1 ⟨r2, h2⟩
        obtain ⟨r1, hr1⟩ := (tallyBallots_isOk_iff ballots1 (seedTally candidates)).2
          (fun b hb => hok b (hperm.mem_iff.1 hb))
        unfold tallyRoundVotes at h1
        rw [hr1] at h1
        cases h1
    | ok r1 =>
      have hok := (tallyBallots_isOk_iff ballots1 (seedTally candidates)).1 ⟨r1, h1⟩
      obtain ⟨r2, hr2⟩ := (tallyBallots_isOk_iff ballots2 (seedTally candidates)).2
        (fun b hb => hok b (hperm.mem_iff.2 hb))
      obtain ⟨t1, b1⟩ := r1
      obtain ⟨t2, b2⟩ := r2
      have := hsame t1 b1 t2 b2 h1 hr2
      subst this
      exact Or.inr ⟨t1, b1, b2, rfl, hr2⟩
  · intro t1 b1 t2 b2 win h1 h2
    rw [hsame t1 b1 t2 b2 h1 h2, hperm.length_eq]

/-! ## Lemmas on the in-place ballot update -/

theorem movedOn_refl (candidates : HashTable Candidate) (b : Ballot) :
    MovedOn candidates b b :=
  ⟨rfl, rfl, Or.inl rfl⟩

theorem movedOn_mono {candidates candidates' : HashTable Candidate} {b b' : Ballot}
    (hg : ElimGrows candidates candidates') (h : MovedOn candidates b b') :
    MovedOn candidates' b b' := by
  obtain ⟨h1, h2, h3⟩ := h
  refine ⟨h1, h2, ?_⟩
  rcases h3 with h | ⟨h, e1⟩ | ⟨h, e1, e2⟩
  · exact Or.inl h
  · exact Or.inr (Or.inl ⟨h, hg _ e1⟩)
  · exact Or.inr (Or.inr ⟨h, hg _ e1, hg _ e2⟩)

/-- The ballot that the `while` loop leaves is a moved-on form of the ballot
it was given. -/
theorem movedOn_of_skipEliminated {candidates : HashTable Candidate} {b b' : Ballot}
    (h : skipEliminated candidates 4 1 b = .ok b') : MovedOn candidates b b' := by
  rcases skipEliminated_cases candidates b with ⟨_, h2⟩ | ⟨h1, _, h3⟩ | ⟨h1, h2, _, h4⟩ |
      ⟨_, _, _, h4⟩ | ⟨_, h2⟩
  · rw [h2] at h; cases h; exact movedOn_refl _ _
  · rw [h3] at h; cases h; exact ⟨rfl, rfl, Or.inr (Or.inl ⟨rfl, h1⟩)⟩
  · rw [h4] at h; cases h; exact ⟨rfl, rfl, Or.inr (Or.inr ⟨rfl, h1, h2⟩)⟩
  · rw [h4] at h; cases h
  · rw [h2] at h; cases h

/-- The `while` loop does the same to a moved-on ballot as to the original,
and leaves the same ballot. -/
theorem skipEliminated_movedOn {candidates : HashTable Candidate} {b b' : Ballot}
    (h : MovedOn candidates b b') :
    skipEliminated candidates 4 1 b' = skipEliminated candidates 4 1 b := by
  obtain ⟨hs, ht, h3⟩ := h
  cases b with
  | mk bh bs bt =>
    cases b' with
    | mk xh xs xt =>
      simp only at hs ht h3
      subst hs ht
      rcases h3 with rfl | ⟨rfl, e1⟩ | ⟨rfl, e1, e2⟩
      · rfl
      · obtain ⟨ch, hch, hche⟩ := (isEliminated_iff _ _).1 e1
        simp only [skipEliminated, Ballot.getHighestRankedCandidate,
          Ballot.setHighestRankedCandidate, Ballot.candidateRanksAt, Candidate.getEliminated,
          hch, hche]
        cases hcs : candidates.get xh with
        | none => simp
        | some cs =>
          cases hcse : cs.eliminated with
          | false => simp [hcse]
          | true => simp [hcse, hcs]
      · obtain ⟨ch, hch, hche⟩ := (isEliminated_iff _ _).1 e1
        obtain ⟨cs, hcs, hcse⟩ := (isEliminated_iff _ _).1 e2
        simp only [skipEliminated, Ballot.getHighestRankedCandidate,
          Ballot.setHighestRankedCandidate, Ballot.candidateRanksAt, Candidate.getEliminated,
          hch, hche, hcs, hcse]
        cases hct : candidates.get xh with
        | none => simp
        | some ct =>
          cases hcte : ct.eliminated with
          | false => simp [hcte]
          | true => simp [hcte, hct]

/-- The ballot loop of `tallyRoundVotes` gives the same result on moved-on
ballots as on the originals. -/
theorem tallyBallots_movedOn {candidates : HashTable Candidate} {originals ballots : List Ballot}
    (h : List.Forall₂ (MovedOn candidates) originals ballots) :
    ∀ t, tallyBallots candidates ballots t = tallyBallots candidates originals t := by
  induction h with
  | nil => intro t; rfl
  | cons hb _ ih =>
    intro t
    simp only [tallyBallots, skipEliminated_movedOn hb, ih]

/-- The ballots that the ballot loop returns are those that the `while` loop
leaves. -/
theorem tallyBallots_ballots {candidates : HashTable Candidate} :
    ∀ (bs : List Ballot) (t t' : HashTable Nat) (bs' : List Ballot),
      tallyBallots candidates bs t = .ok (t', bs') →
      List.Forall₂ (fun b b' => skipEliminated candidates 4 1 b = .ok b') bs bs' := by
  intro bs
  induction bs with
  | nil =>
    intro t t' bs' h
    simp only [tallyBallots, Except.ok.injEq, Prod.mk.injEq] at h
    rw [← h.2]
    exact List.Forall₂.nil
  | cons b rest ih =>
    intro t t' bs' h
    rw [tallyBallots] at h
    cases hs : skipEliminated candidates 4 1 b with
    | error e => rw [hs] at h; cases h
    | ok b1 =>
      rw [hs] at h
      simp only at h
      cases hg : t.get b1.getHighestRankedCandidate with
      | none => rw [hg] at h; cases h
      | some v =>
        rw [hg] at h
        simp only at h
        cases hr : tallyBallots candidates rest
            (t.modify b1.getHighestRankedCandidate (fun n => n + 1)) with
        | error e => rw [hr] at h; cases h
        | ok res =>
          obtain ⟨t1, rest1⟩ := res
          rw [hr] at h
          simp only [Except.ok.injEq, Prod.mk.injEq] at h
          rw [← h.2]
          exact List.Forall₂.cons hs (ih _ _ _ hr)

/-- At the start of every round of a run the ballots are moved-on forms of the
original ballots. -/
theorem runState_movedOn {originals ballots : List Ballot} {candidates : HashTable Candidate}
    (h : RunState originals ballots candidates) :
    List.Forall₂ (MovedOn candidates) originals ballots := by
  induction h with
  | start candidates =>
    exact List.forall₂_same.2 (fun b _ => movedOn_refl candidates b)
  | round _ hrun hg ih =>
    unfold tallyRoundVotes at hrun
    rw [tallyBallots_movedOn ih] at hrun
    have h2 := tallyBallots_ballots _ _ _ _ hrun
    exact h2.imp (fun b b' hb => movedOn_mono hg (movedOn_of_skipEliminated hb))

/-- In every round of a run `tallyRoundVotes` gives on the mutated ballots
what it gives on the original ballots: the same tally and ballots, or the same
failure. -/
theorem tallyRoundVotes_runState {originals ballots : List Ballot}
    {candidates : HashTable Candidate} (h : RunState originals ballots candidates) :
    tallyRoundVotes ballots candidates = tallyRoundVotes originals candidates :=
  tallyBallots_movedOn (runState_movedOn h) _

theorem entries_eq_map_of_get (f : String → Nat) :
    ∀ (es : List (String × Nat)) (ks : List (String × Candidate)),
      es.map Prod.fst = ks.map Prod.fst → (∀ e ∈ es, e.2 = f e.1) →
      es = ks.map (fun e => (e.1, f e.1)) := by
  intro es
  induction es with
  | nil =>
    intro ks hk _
    cases ks with
    | nil => rfl
    | cons k r => simp at hk
  | cons e r ih =>
    intro ks hk hv
    cases ks with
    | nil => simp at hk
    | cons k ks' =>
      simp only [List.map_cons, List.cons.injEq] at hk
      have h1 := hv e (List.mem_cons_self _ _)
      simp only [List.map_cons]
      rw [← ih ks' hk.2 (fun e' he' => hv e' (List.mem_cons_of_mem _ he')), ← hk.1, ← h1]

theorem isEliminated_of_fresh {candidates : HashTable Candidate}
    (h : ∀ e ∈ candidates.entries, e.2.eliminated = false) (k : String) :
    isEliminated candidates k = false := by
  unfold isEliminated
  cases hk : candidates.get k with
  | none => rfl
  | some c => exact h (k, c) (HashTable.mem_of_lookup _ _ _ hk)

/-- With distinct ids and registered ranked ids, `tallyRoundVotes` on the
original ballots is the recount: the same tally when every ballot has a
non-eliminated candidate, a failure otherwise. -/
theorem tallyRoundVotes_eq_recount (candidates : HashTable Candidate) (originals : List Ballot)
    (hdistinct : candidates.keys.Nodup)
    (hreg : ∀ b ∈ originals, allRegistered candidates b) :
    ((∃ e, tallyRoundVotes originals candidates = .error e) ↔
      ∃ b ∈ originals, firstActive candidates b = none) ∧
    (∀ t ballots', tallyRoundVotes originals candidates = .ok (t, ballots') →
      recountFromOriginals candidates originals = some t) := by
  constructor
  · constructor
    · intro ⟨e, he⟩
      by_contra hcon
      obtain ⟨t, bs', hrun⟩ := tallyBallots_complete originals (seedTally candidates) hreg
        (fun b hb hnone => hcon ⟨b, hb, hnone⟩)
        (fun k hk => by rw [seedTally_get_of_active candidates hdistinct k hk]; rfl)
      unfold tallyRoundVotes at he
      rw [hrun] at he
      cases he
    · intro ⟨b, hb, hnone⟩
      cases hrun : tallyRoundVotes originals candidates with
      | error e => exact ⟨e, rfl⟩
      | ok r =>
        exfalso
        have h0 := (tallyBallots_ok originals _ _ _ hrun).2.2.2.1
        unfold exhaustedCount at h0
        have hpos : 0 < originals.countP (fun b => firstActive candidates b = none) :=
          List.countP_pos_iff.2 ⟨b, hb, by simp [hnone]⟩
        omega
  · intro t ballots' hrun
    obtain ⟨hcount, hkeys, _, hex, _⟩ := tallyBallots_ok originals _ _ _ hrun
    have hall : ∀ b ∈ originals, firstActive candidates b ≠ none := by
      intro b hb hnone
      unfold exhaustedCount at hex
      have hpos : 0 < originals.countP (fun b => firstActive candidates b = none) :=
        List.countP_pos_iff.2 ⟨b, hb, by simp [hnone]⟩
      omega
    have htf := tallyRoundVotes_tallyFor hdistinct hrun
    have hk2 : t.entries.map Prod.fst
        = (candidates.entries.filter (fun e => !e.2.eliminated)).map Prod.fst := by
      have : t.keys = (seedTally candidates).keys := hkeys
      unfold HashTable.keys at this
      rw [this, seedTally_entries candidates hdistinct]
      simp [seedEntries, List.map_map, Function.comp_def]
    have hvals : ∀ e ∈ t.entries,
        e.2 = originals.countP (fun b => firstActive candidates b = some e.1) := by
      intro e he
      obtain ⟨hg, hact⟩ := tallyFor_get_of_mem htf he
      have := hcount e.1
      rw [hg, seedTally_get_of_active candidates hdistinct e.1 hact] at this
      simpa using this
    have hent := entries_eq_map_of_get
      (fun k => originals.countP (fun b => firstActive candidates b = some k))
      t.entries _ hk2 hvals
    unfold recountFromOriginals
    rw [if_pos hall]
    cases t with
    | mk entries => simp only at hent; rw [hent]

/-! ## Claim on the in-place ballot update -/

/-- C15, counterexample: in round 2 of the run on the scenario with the id X
as a second choice, every original ranking has a candidate that is not
eliminated and the recount gives A=2, C=3, but `tallyRoundVotes` moves the
third ballot from the eliminated B on to X and fails on the lookup of X. -/
theorem stray_id_round_example :
    RunState strayBallots strayBallots scenarioCandidates2 ∧
      (∀ b ∈ strayBallots, firstActive scenarioCandidates2 b ≠ none) ∧
      recountFromOriginals scenarioCandidates2 strayBallots = some ⟨[("A", 2), ("C", 3)]⟩ ∧
      tallyRoundVotes strayBallots scenarioCandidates2 = .error .nullDereference := by
  refine ⟨?_, by decide, by decide, rfl⟩
  have h1 : tallyRoundVotes strayBallots scenarioCandidates
      = .ok (scenarioTally1, strayBallots) := rfl
  refine RunState.round (RunState.start scenarioCandidates) h1 ?_
  intro k hk
  rw [isEliminated_of_fresh (by decide) k] at hk
  cases hk

/-- C15, amended: in every round of a run (any number of earlier rounds,
eliminations only ever added) `tallyRoundVotes` gives on the ballots mutated
by the earlier rounds exactly what it gives on the original ballots. When the
ids are distinct and every ranked id is registered, it fails exactly when some
original ranking has no non-eliminated candidate, and the tally it returns is
the recount that gives each ballot's vote to the first non-eliminated
candidate of its original ranking. -/
theorem inplace_update_refines_recount (candidates : HashTable Candidate)
    (originals ballots : List Ballot) (hstate : RunState originals ballots candidates) :
    tallyRoundVotes ballots candidates = tallyRoundVotes originals candidates ∧
    (candidates.keys.Nodup → (∀ b ∈ originals, allRegistered candidates b) →
      ((∃ e, tallyRoundVotes ballots candidates = .error e) ↔
        ∃ b ∈ originals, firstActive candidates b = none) ∧
      (∀ t ballots', tallyRoundVotes ballots candidates = .ok (t, ballots') →
        recountFromOriginals candidates originals = some t)) := by
  have heq := tallyRoundVotes_runState hstate
  refine ⟨heq, fun hnd hreg => ?_⟩
  rw [heq]
  exact tallyRoundVotes_eq_recount candidates originals hnd hreg

/-! ## Lemmas on the run with full rankings -/

theorem processRoundResults_eq_modify {t : HashTable Nat} {candidates candidates' : HashTable Candidate}
    {half : FloatHalves} {win win' : String}
    (h : processRoundResults t candidates half win = .ok (candidates', win')) :
    ∃ loser, candidates' = candidates.modify loser Candidate.setEliminated := by
  unfold processRoundResults at h
  split at h
  · cases h
  · split at h
    · cases h
    · split at h
      · cases h
      · simp only [Except.ok.injEq, Prod.mk.injEq] at h
        exact ⟨_, h.1.symm⟩

theorem elimGrows_modify (candidates : HashTable Candidate) (loser : String) :
    ElimGrows candidates (candidates.modify loser Candidate.setEliminated) := by
  intro k hk
  obtain ⟨c, hc, hce⟩ := (isEliminated_iff _ _).1 hk
  rw [isEliminated_iff, HashTable.get_modify]
  by_cases h : k = loser
  · subst h
    exact ⟨c.setEliminated, by simp [hc], rfl⟩
  · exact ⟨c, by simp [h, hc], hce⟩

theorem names_modify (Q : String → Prop) (candidates : HashTable Candidate) (loser : String)
    (h : ∀ k c, candidates.get k = some c → Q c.name) :
    ∀ k c, (candidates.modify loser Candidate.setEliminated).get k = some c → Q c.name := by
  intro k c hc
  rw [HashTable.get_modify] at hc
  by_cases hk : k = loser
  · subst hk
    simp only [if_true] at hc
    cases hg : candidates.get k with
    | none => rw [hg] at hc; cases hc
    | some c0 =>
      rw [hg] at hc
      simp only [Option.map_some', Option.some.injEq] at hc
      rw [← hc]
      exact h k c0 hg
  · rw [if_neg hk] at hc
    exact h k c hc

theorem allRegistered_modify (candidates : HashTable Candidate) (loser : String) (b : Ballot)
    (h : allRegistered candidates b) :
    allRegistered (candidates.modify loser Candidate.setEliminated) b := by
  unfold allRegistered at h ⊢
  simp only [isSome_get_modify]
  exact h

theorem firstActive_ne_none_of_ranked {candidates : HashTable Candidate} {b : Ballot}
    {k : String} (hk : isActive candidates k = true) (hb : k = b.h ∨ k = b.s ∨ k = b.t) :
    firstActive candidates b ≠ none := by
  rw [firstActive_eq]
  by_cases h1 : isActive candidates b.h = true
  · rw [if_pos h1]; simp
  · by_cases h2 : isActive candidates b.s = true
    · rw [if_neg h1, if_pos h2]; simp
    · by_cases h3 : isActive candidates b.t = true
      · rw [if_neg h1, if_neg h2, if_pos h3]; simp
      · exfalso
        rcases hb with h | h | h
        · rw [h] at hk; exact h1 hk
        · rw [h] at hk; exact h2 hk
        · rw [h] at hk; exact h3 hk

theorem exists_active_of_activeCount_pos {candidates : HashTable Candidate}
    (hnd : candidates.keys.Nodup) (h : 0 < activeCount candidates) :
    ∃ k ∈ candidates.keys, isActive candidates k = true := by
  unfold activeCount at h
  obtain ⟨e, he, hel⟩ := List.countP_pos_iff.1 h
  refine ⟨e.1, List.mem_map.2 ⟨e, he, rfl⟩, ?_⟩
  rw [isActive_iff]
  exact ⟨e.2, HashTable.lookup_of_mem e.1 e.2 _ hnd he, by simpa using hel⟩

/-- With distinct ids a returned tally has as many entries as there are
candidates that are not eliminated. -/
theorem tally_length_eq_activeCount {candidates : HashTable Candidate}
    {ballots ballots' : List Ballot} {t : HashTable Nat} (hnd : candidates.keys.Nodup)
    (hrun : tallyRoundVotes ballots candidates = .ok (t, ballots')) :
    t.entries.length = activeCount candidates := by
  have hk : t.keys = (seedTally candidates).keys := (tallyBallots_ok ballots _ _ _ hrun).2.1
  have h1 : t.entries.length = t.keys.length := by simp [HashTable.keys]
  rw [h1, hk]
  unfold HashTable.keys activeCount
  rw [seedTally_entries candidates hnd]
  simp [seedEntries, List.countP_eq_length_filter]

/-- The election loop on ballots that each rank every registered candidate,
with registered ids only, and candidates whose names are not empty: as long as
a candidate is left, the loop ends with a winner within as many rounds as
there are candidates left. -/
theorem electionLoop_full_rankings (Q : String → Prop) (hQ : ∀ n, Q n → n ≠ "")
    (originals : List Ballot) (horig : originals ≠ []) :
    ∀ (fuel : Nat) (ballots : List Ballot) (candidates : HashTable Candidate) (roundNum : Nat)
      (tallies : List (HashTable Nat)),
      candidates.keys.Nodup →
      (∀ k c, candidates.get k = some c → Q c.name) →
      (∀ b ∈ originals, allRegistered candidates b) →
      (∀ b ∈ originals, ∀ k ∈ candidates.keys, k = b.h ∨ k = b.s ∨ k = b.t) →
      List.Forall₂ (MovedOn candidates) originals ballots →
      0 < activeCount candidates → activeCount candidates ≤ fuel →
      ∃ w c ts r, electionLoop (halfOf originals.length) fuel ballots candidates roundNum ""
          tallies = .finished w r c ts ∧ Q w ∧ roundNum < r ∧
        r ≤ roundNum + activeCount candidates := by
  intro fuel
  induction fuel with
  | zero => intro _ _ _ _ _ _ _ _ _ h1 h2; omega
  | succ fuel ih =>
    intro ballots candidates roundNum tallies hnd hnames hreg hfull hmoved hpos hfuel
    obtain ⟨ka, hka, hkact⟩ := exists_active_of_activeCount_pos hnd hpos
    obtain ⟨t, ballots', hrunO⟩ := tallyBallots_complete originals (seedTally candidates) hreg
      (fun b hb => firstActive_ne_none_of_ranked hkact (hfull b hb ka hka))
      (fun k hk => by rw [seedTally_get_of_active candidates hnd k hk]; rfl)
    have hrunO' : tallyRoundVotes originals candidates = .ok (t, ballots') := hrunO
    have hrun : tallyRoundVotes ballots candidates = .ok (t, ballots') := by
      unfold tallyRoundVotes
      rw [tallyBallots_movedOn hmoved]
      exact hrunO
    have htotal : totalVotes t = originals.length := by
      rw [(tallyBallots_ok originals _ _ _ hrunO).2.2.1, totalVotes_seedTally]
      simp
    have hlenpos : 0 < originals.length := List.length_pos.2 horig
    have hne : t.entries ≠ [] := by
      intro h
      unfold totalVotes at htotal
      rw [h] at htotal
      simp at htotal
      omega
    obtain ⟨_, candidates', win', hproc, _, hel, hwin⟩ :=
      processRoundResults_ok (halfOf originals.length) ""
        (tallyRoundVotes_tallyFor hnd hrun) hne
    obtain ⟨loser, hmod⟩ := processRoundResults_eq_modify hproc
    have hac := eliminatesOne_activeCount hel
    rw [electionLoop_step _ fuel ballots ballots' candidates candidates' roundNum win'
      tallies t hrun hproc]
    by_cases hw : win' = ""
    · subst hw
      have hall : ∀ e ∈ t.entries, exceedsHalf e.2 (halfOf originals.length) = false := by
        rcases hwin with ⟨e, _, _, c, hc, hwn⟩ | ⟨hall, _⟩
        · exact absurd hwn.symm (hQ _ (hnames _ _ hc))
        · exact hall
      have htwo : 2 ≤ activeCount candidates := by
        by_contra hcon
        have hone : t.entries.length = 1 := by
          rw [tally_length_eq_activeCount hnd hrun]; omega
        obtain ⟨e, he⟩ := List.length_eq_one.1 hone
        have hv : e.2 = originals.length := by
          unfold totalVotes at htotal
          rw [he] at htotal
          simpa using htotal
        have h1 := hall e (by rw [he]; exact List.mem_singleton.2 rfl)
        rw [hv, exceedsHalf_self _ hlenpos] at h1
        cases h1
      have hgrow : ElimGrows candidates candidates' := by
        rw [hmod]; exact elimGrows_modify _ _
      have hmoved' : List.Forall₂ (MovedOn candidates') originals ballots' :=
        (tallyBallots_ballots _ _ _ _ hrunO).imp
          (fun b b' hb => movedOn_mono hgrow (movedOn_of_skipEliminated hb))
      have hkeys : candidates'.keys = candidates.keys := eliminatesOne_keys hel
      obtain ⟨w, c, ts, r, h1, h2, h3, h4⟩ := ih ballots' candidates' (roundNum + 1)
        (tallies ++ [t]) (by rw [hkeys]; exact hnd)
        (by rw [hmod]; exact names_modify Q _ _ hnames)
        (fun b hb => by rw [hmod]; exact allRegistered_modify _ _ _ (hreg b hb))
        (fun b hb k hk => hfull b hb k (by rw [← hkeys]; exact hk))
        hmoved' (by omega) (by omega)
      exact ⟨w, c, ts, r, h1, h2, by omega, by omega⟩
    · rw [electionLoop_of_winner _ _ _ _ _ _ _ hw]
      refine ⟨win', candidates', tallies ++ [t], roundNum + 1, rfl, ?_, by omega, by omega⟩
      rcases hwin with ⟨e, _, _, c, hc, hwn⟩ | ⟨_, hwn⟩
      · rw [hwn]; exact hnames _ _ hc
      · exact absurd hwn hw

/-! ## Claim on the run with full rankings -/

/-- C19: an election with at least one candidate, distinct ids, names that are
not empty and no candidate eliminated, and at least one ballot, in which every
ballot ranks registered ids only and ranks every registered candidate (which
leaves room for three candidates at most): the run reaches no failure and ends
with a winner, the name of a registered candidate, within as many rounds as
there are candidates. -/
theorem election_with_full_rankings_succeeds (candidates : HashTable Candidate)
    (ballots : List Ballot) (fuel : Nat)
    (hdistinct : candidates.keys.Nodup)
    (hfresh : ∀ e ∈ candidates.entries, e.2.eliminated = false)
    (hnames : ∀ e ∈ candidates.entries, e.2.name ≠ "")
    (hcands : 1 ≤ candidates.entries.length)
    (hballots : ballots ≠ [])
    (hreg : ∀ b ∈ ballots, allRegistered candidates b)
    (hfull : ∀ b ∈ ballots, ∀ k ∈ candidates.keys, k = b.h ∨ k = b.s ∨ k = b.t)
    (hfuel : candidates.entries.length ≤ fuel) :
    ∃ w c ts r, runElection fuel candidates ballots = .finished w r c ts ∧ w ≠ "" ∧
      (∃ e ∈ candidates.entries, w = e.2.name) ∧ 1 ≤ r ∧ r ≤ candidates.entries.length := by
  have hac : activeCount candidates = candidates.entries.length := by
    unfold activeCount
    rw [List.countP_eq_length]
    intro e he
    simp [hfresh e he]
  obtain ⟨w, c, ts, r, h1, ⟨h2, h2'⟩, h3, h4⟩ :=
    electionLoop_full_rankings
      (fun n => n ≠ "" ∧ ∃ e ∈ candidates.entries, n = e.2.name) (fun n hn => hn.1)
      ballots hballots fuel ballots candidates 0 [] hdistinct
      (fun k c hc => by
        have hmem := HashTable.mem_of_lookup _ _ _ hc
        exact ⟨hnames _ hmem, (k, c), hmem, rfl⟩)
      hreg hfull (List.forall₂_same.2 (fun b _ => movedOn_refl candidates b))
      (by omega) (by omega)
  exact ⟨w, c, ts, r, h1, h2, h2', by omega, by omega⟩

/-! ## The winner and the loser of a round -/

/-- The loser that the loop of `processRoundResults` leaves: the starting
loser, when no visited entry that fails the majority test has a lower count,
or else a visited entry that fails the majority test. -/
theorem scanTally_loser (t : HashTable Nat) (candidates : HashTable Candidate)
    (half : FloatHalves) (es : List (String × Nat)) :
    ∀ (loser win : String) (lv : Nat),
      (∀ e ∈ es, t.get e.1 = some e.2 ∧ isActive candidates e.1 = true) →
      t.get loser = some lv →
      ∃ loser' win', scanTally t candidates half es loser win = .ok (loser', win') ∧
        ((loser' = loser ∧ ∀ e ∈ es, exceedsHalf e.2 half = false → lv ≤ e.2) ∨
          (∃ e ∈ es, loser' = e.1 ∧ exceedsHalf e.2 half = false)) := by
  induction es with
  | nil =>
    intro loser win lv _ _
    exact ⟨loser, win, rfl, Or.inl ⟨rfl, by simp⟩⟩
  | cons cur rest ih =>
    intro loser win lv hes hlv
    obtain ⟨hv, hact⟩ := hes cur (List.mem_cons_self _ _)
    obtain ⟨c, hc, hce⟩ := (isActive_iff _ _).1 hact
    have hrest : ∀ e ∈ rest, t.get e.1 = some e.2 ∧ isActive candidates e.1 = true :=
      fun e he => hes e (List.mem_cons_of_mem _ he)
    rw [scanTally_cons t candidates half cur rest loser win c lv hc hce hv hlv]
    by_cases hex : exceedsHalf cur.2 half = true
    · rw [if_pos hex]
      obtain ⟨l', w', hrun, hl'⟩ := ih loser c.name lv hrest hlv
      refine ⟨l', w', hrun, ?_⟩
      rcases hl' with ⟨h1, h2⟩ | ⟨e, he, h1, h2⟩
      · refine Or.inl ⟨h1, fun e he hne => ?_⟩
        rcases List.mem_cons.1 he with rfl | he
        · rw [hex] at hne; cases hne
        · exact h2 e he hne
      · exact Or.inr ⟨e, List.mem_cons_of_mem _ he, h1, h2⟩
    · rw [if_neg hex]
      have hex' : exceedsHalf cur.2 half = false := by simpa using hex
      by_cases hlt : cur.2 < lv
      · rw [if_pos hlt]
        obtain ⟨l', w', hrun, hl'⟩ := ih cur.1 win cur.2 hrest hv
        refine ⟨l', w', hrun, Or.inr ?_⟩
        rcases hl' with ⟨h1, _⟩ | ⟨e, he, h1, h2⟩
        · exact ⟨cur, List.mem_cons_self _ _, h1, hex'⟩
        · exact ⟨e, List.mem_cons_of_mem _ he, h1, h2⟩
      · rw [if_neg hlt]
        obtain ⟨l', w', hrun, hl'⟩ := ih loser win lv hrest hlv
        refine ⟨l', w', hrun, ?_⟩
        rcases hl' with ⟨h1, h2⟩ | ⟨e, he, h1, h2⟩
        · refine Or.inl ⟨h1, fun e he hne => ?_⟩
          rcases List.mem_cons.1 he with rfl | he
          · omega
          · exact h2 e he hne
        · exact Or.inr ⟨e, List.mem_cons_of_mem _ he, h1, h2⟩

theorem entry_eq_of_key_eq {t : HashTable Nat} (hnd : t.keys.Nodup) {e1 e2 : String × Nat}
    (h1 : e1 ∈ t.entries) (h2 : e2 ∈ t.entries) (hk : e1.1 = e2.1) : e1 = e2 := by
  have g1 := HashTable.lookup_of_mem e1.1 e1.2 t.entries hnd h1
  have g2 := HashTable.lookup_of_mem e2.1 e2.2 t.entries hnd h2
  rw [hk, g2] at g1
  exact Prod.ext hk (Option.some.inj g1).symm

/-- When the tally of a round has at least two entries, the candidate that
`processRoundResults` declares the winner is not the one it eliminates: the
entry of the winner in the candidate table is left as it was. -/
theorem winner_survives_of_two_entries (candidates candidates' : HashTable Candidate)
    (ballots ballots' : List Ballot) (t : HashTable Nat) (win win' : String)
    (hdistinct : candidates.keys.Nodup)
    (hrun : tallyRoundVotes ballots candidates = .ok (t, ballots'))
    (htwo : 2 ≤ t.entries.length)
    (hproc : processRoundResults t candidates (halfOf ballots.length) win
      = .ok (candidates', win')) :
    ∀ e ∈ t.entries, exceedsHalf e.2 (halfOf ballots.length) = true →
      candidates'.get e.1 = candidates.get e.1 := by
  intro e he hex
  have htf := tallyRoundVotes_tallyFor hdistinct hrun
  have hsum : totalVotes t = ballots.length := by
    rw [(tallyBallots_ok ballots _ _ _ hrun).2.2.1, totalVotes_seedTally]
    simp
  cases hents : t.entries with
  | nil => rw [hents] at htwo; simp at htwo
  | cons first rest =>
    cases hrest : rest with
    | nil => rw [hents, hrest] at htwo; simp at htwo
    | cons second rest2 =>
      have hfirst : first ∈ t.entries := by rw [hents]; exact List.mem_cons_self _ _
      have hsecond : second ∈ t.entries := by
        rw [hents, hrest]; exact List.mem_cons_of_mem _ (List.mem_cons_self _ _)
      have hne12 : first.1 ≠ second.1 := by
        have hk := htf.1
        unfold HashTable.keys at hk
        rw [hents, hrest] at hk
        simp only [List.map_cons, List.nodup_cons, List.mem_cons, not_or] at hk
        exact hk.1.1
      obtain ⟨l', w', hscan, hl'⟩ := scanTally_loser t candidates (halfOf ballots.length)
        t.entries first.1 win first.2 (fun x hx => tallyFor_get_of_mem htf hx)
        (tallyFor_get_of_mem htf hfirst).1
      have hloser : l' ≠ e.1 := by
        rcases hl' with ⟨h1, h2⟩ | ⟨x, hx, h1, h2⟩
        · intro hk
          have hfe : first = e := entry_eq_of_key_eq htf.1 hfirst he (h1.symm.trans hk)
          have hsec : exceedsHalf second.2 (halfOf ballots.length) = false := by
            cases hs : exceedsHalf second.2 (halfOf ballots.length) with
            | false => rfl
            | true =>
              exfalso
              have := majority_unique hrun second e hsecond he
                (exceedsHalf_imp _ _ hs) (exceedsHalf_imp _ _ hex)
              rw [← hfe] at this
              exact hne12 (by rw [this])
          have hle := h2 second hsecond hsec
          have hadd := add_le_sum_of_ne t.entries first second hfirst hsecond
            (fun h => hne12 (by rw [h]))
          have hmaj := exceedsHalf_imp _ _ hex
          rw [← hfe] at hmaj
          unfold totalVotes at hsum
          omega
        · intro hk
          have := entry_eq_of_key_eq htf.1 hx he (h1.symm.trans hk)
          rw [this, hex] at h2
          cases h2
      unfold processRoundResults at hproc
      rw [hents] at hscan hproc
      simp only [hscan] at hproc
      split at hproc
      · cases hproc
      · simp only [Except.ok.injEq, Prod.mk.injEq] at hproc
        rw [← hproc.1, HashTable.get_modify, if_neg (fun h => hloser h.symm)]

/-! ## The claims at concrete inputs -/

/-- The count theorem (C1) at round 2 of the scenario, where B is eliminated. -/
theorem tallyRoundVotes_counts_witness :
    (scenarioCandidates2.keys.Nodup ∧
      (∀ b ∈ scenarioBallots, allRegistered scenarioCandidates2 b) ∧
      (∀ b ∈ scenarioBallots, isActive scenarioCandidates2 b.h = true ∨
        isActive scenarioCandidates2 b.s = true ∨ isActive scenarioCandidates2 b.t = true)) ∧
    ∃ tally ballots', tallyRoundVotes scenarioBallots scenarioCandidates2
        = .ok (tally, ballots') ∧
      ∀ k c, (k, c) ∈ scenarioCandidates2.entries → c.eliminated = false →
        tally.get k
          = some (scenarioBallots.countP (fun b => firstActive scenarioCandidates2 b = some k)) :=
  ⟨⟨by decide, by decide, by decide⟩,
    tallyRoundVotes_counts scenarioCandidates2 scenarioBallots (by decide) (by decide)
      (by decide)⟩

/-- The total theorem (C2) at round 2 of the scenario. -/
theorem tallyRoundVotes_total_witness :
    tallyRoundVotes scenarioBallots scenarioCandidates2 = .ok (scenarioTally2, scenarioBallots2) ∧
      totalVotes scenarioTally2 + exhaustedCount scenarioCandidates2 scenarioBallots
        = scenarioBallots.length :=
  ⟨rfl, tallyRoundVotes_total scenarioCandidates2 scenarioBallots scenarioBallots2
    scenarioTally2 rfl⟩

/-- The lowest-count theorem (C4) at round 1 of the scenario. -/
theorem processRoundResults_eliminates_first_lowest_witness :
    (scenarioCandidates.keys.Nodup ∧
      tallyRoundVotes scenarioBallots scenarioCandidates = .ok (scenarioTally1, scenarioBallots) ∧
      scenarioTally1.entries ≠ [] ∧ (∀ e ∈ scenarioTally1.entries, 2 * e.2 ≤ 5)) ∧
    ∃ pre loser m post, scenarioTally1.entries = pre ++ (loser, m) :: post ∧
      (∀ p ∈ pre, m < p.2) ∧ (∀ p ∈ post, m ≤ p.2) ∧
      processRoundResults scenarioTally1 scenarioCandidates (halfOf 5) ""
        = .ok (scenarioCandidates.modify loser Candidate.setEliminated, "") :=
  ⟨⟨by decide, rfl, by decide, by decide⟩,
    processRoundResults_eliminates_first_lowest scenarioCandidates scenarioBallots
      scenarioBallots scenarioTally1 5 "" (by decide) rfl (by decide) (by decide)⟩

/-- The exhausted-ballot theorem (C6) at the exhausted-ballot example. -/
theorem tallyRoundVotes_exhausted_fails_witness :
    ((⟨"A", "A", "A"⟩ : Ballot) ∈ exhaustedBallots ∧
      allEliminated exhaustedCandidates ⟨"A", "A", "A"⟩) ∧
    (tallyRoundVotes exhaustedBallots exhaustedCandidates = .error .outOfRange ∨
      tallyRoundVotes exhaustedBallots exhaustedCandidates = .error .nullDereference) ∧
    (exhaustedCandidates.keys.Nodup →
      (∀ b' ∈ exhaustedBallots, allRegistered exhaustedCandidates b') →
      tallyRoundVotes exhaustedBallots exhaustedCandidates = .error .outOfRange) :=
  ⟨⟨by decide, by decide⟩,
    tallyRoundVotes_exhausted_fails exhaustedCandidates exhaustedBallots ⟨"A", "A", "A"⟩
      (by decide) (by decide)⟩

/-- The one-elimination theorem (C7) at round 1 of the scenario. -/
theorem round_without_winner_eliminates_one_witness :
    (scenarioCandidates.keys.Nodup ∧
      tallyRoundVotes scenarioBallots scenarioCandidates = .ok (scenarioTally1, scenarioBallots) ∧
      scenarioTally1.entries ≠ []) ∧
    ∃ pre loser c post win',
      scenarioCandidates.entries = pre ++ (loser, c) :: post ∧ c.eliminated = false ∧
      processRoundResults scenarioTally1 scenarioCandidates (halfOf 5) ""
        = .ok (⟨pre ++ (loser, { c with eliminated := true }) :: post⟩, win') ∧
      ((∀ e ∈ scenarioTally1.entries, exceedsHalf e.2 (halfOf 5) = false) → win' = "") :=
  ⟨⟨by decide, rfl, by decide⟩,
    round_without_winner_eliminates_one scenarioCandidates scenarioBallots scenarioBallots
      scenarioTally1 (halfOf 5) "" (by decide) rfl (by decide)⟩

/-- The final-round theorem (C8) at round 2 of the scenario. -/
theorem final_round_eliminates_one_witness :
    (scenarioCandidates2.keys.Nodup ∧
      tallyRoundVotes scenarioBallots scenarioCandidates2
        = .ok (scenarioTally2, scenarioBallots2) ∧
      (∃ e ∈ scenarioTally2.entries, exceedsHalf e.2 (halfOf 5) = true)) ∧
    ∃ pre loser c post e w,
      scenarioCandidates2.entries = pre ++ (loser, c) :: post ∧ c.eliminated = false ∧
      e ∈ scenarioTally2.entries ∧ exceedsHalf e.2 (halfOf 5) = true ∧
      scenarioCandidates2.get e.1 = some w ∧
      processRoundResults scenarioTally2 scenarioCandidates2 (halfOf 5) ""
        = .ok (⟨pre ++ (loser, { c with eliminated := true }) :: post⟩, w.name) :=
  ⟨⟨by decide, rfl, by decide⟩,
    final_round_eliminates_one scenarioCandidates2 scenarioBallots scenarioBallots2
      scenarioTally2 (halfOf 5) "" (by decide) rfl (by decide)⟩

/-- The termination theorem (C9) at the scenario, with room for 4 rounds. -/
theorem election_terminates_witness :
    (scenarioCandidates.keys.Nodup ∧ scenarioCandidates.entries.length < 4) ∧
    runElection 4 scenarioCandidates scenarioBallots
        = runElection (scenarioCandidates.entries.length + 1) scenarioCandidates
          scenarioBallots ∧
      ((∃ w c ts r, runElection 4 scenarioCandidates scenarioBallots = .finished w r c ts ∧
          w ≠ "" ∧ 1 ≤ r ∧ r ≤ scenarioCandidates.entries.length) ∨
        (∃ f r, runElection 4 scenarioCandidates scenarioBallots = .failed f r ∧
          (f = .nullDereference ∨ f = .outOfRange) ∧
          1 ≤ r ∧ r ≤ scenarioCandidates.entries.length + 1)) :=
  ⟨⟨by decide, by decide⟩,
    election_terminates scenarioCandidates scenarioBallots 4 (by decide) (by decide)⟩

/-- The stopping theorem (C10) at round 2 of the scenario. -/
theorem election_stops_at_majority_witness :
    (scenarioCandidates2.keys.Nodup ∧ scenarioBallots.length < 2 ^ 24 ∧
      tallyRoundVotes scenarioBallots scenarioCandidates2
        = .ok (scenarioTally2, scenarioBallots2) ∧
      scenarioTally2.entries ≠ []) ∧
    scenarioBallots2.length = scenarioBallots.length ∧
    (∀ k v c, (k, v) ∈ scenarioTally2.entries → scenarioBallots.length < 2 * v →
      scenarioCandidates2.get k = some c → c.name ≠ "" →
      ∃ candidates', electionLoop (halfOf scenarioBallots.length) (0 + 1) scenarioBallots
        scenarioCandidates2 1 "" [scenarioTally1]
          = .finished c.name (1 + 1) candidates' ([scenarioTally1] ++ [scenarioTally2])) ∧
    (∀ k v c, (k, v) ∈ scenarioTally2.entries → scenarioBallots.length < 2 * v →
      scenarioCandidates2.get k = some c → c.name = "" →
      ∃ candidates', electionLoop (halfOf scenarioBallots.length) (0 + 1) scenarioBallots
        scenarioCandidates2 1 "" [scenarioTally1]
          = electionLoop (halfOf scenarioBallots.length) 0 scenarioBallots2 candidates'
            (1 + 1) "" ([scenarioTally1] ++ [scenarioTally2])) ∧
    ((∀ e ∈ scenarioTally2.entries, 2 * e.2 ≤ scenarioBallots.length) →
      ∃ candidates', electionLoop (halfOf scenarioBallots.length) (0 + 1) scenarioBallots
        scenarioCandidates2 1 "" [scenarioTally1]
          = electionLoop (halfOf scenarioBallots.length) 0 scenarioBallots2 candidates'
            (1 + 1) "" ([scenarioTally1] ++ [scenarioTally2])) :=
  ⟨⟨by decide, by decide, rfl, by decide⟩,
    election_stops_at_majority scenarioCandidates2 scenarioBallots scenarioBallots2
      scenarioTally2 0 1 [scenarioTally1] (by decide) (by decide) rfl (by decide)⟩

/-- The key theorem (C14) at round 2 of the scenario. -/
theorem tallyRoundVotes_keys_witness :
    (scenarioCandidates2.keys.Nodup ∧
      tallyRoundVotes scenarioBallots scenarioCandidates2
        = .ok (scenarioTally2, scenarioBallots2)) ∧
    scenarioTally2.keys
        = (scenarioCandidates2.entries.filter (fun e => !e.2.eliminated)).map Prod.fst ∧
      scenarioTally2.keys.Nodup :=
  ⟨⟨by decide, rfl⟩,
    tallyRoundVotes_keys scenarioCandidates2 scenarioBallots scenarioBallots2 scenarioTally2
      (by decide) rfl⟩

/-- The uniqueness theorem (C16) at round 2 of the scenario. -/
theorem majority_candidate_unique_witness :
    tallyRoundVotes scenarioBallots scenarioCandidates2
        = .ok (scenarioTally2, scenarioBallots2) ∧
    (∀ e1 ∈ scenarioTally2.entries, ∀ e2 ∈ scenarioTally2.entries,
      scenarioBallots.length < 2 * e1.2 → scenarioBallots.length < 2 * e2.2 → e1 = e2) ∧
    scenarioTally2.entries.find? (fun e => exceedsHalf e.2 (halfOf scenarioBallots.length))
      = scenarioTally2.entries.reverse.find?
          (fun e => exceedsHalf e.2 (halfOf scenarioBallots.length)) ∧
    (scenarioCandidates2.keys.Nodup → ∀ win candidates' win',
      processRoundResults scenarioTally2 scenarioCandidates2 (halfOf scenarioBallots.length) win
        = .ok (candidates', win') →
      ∀ e, scenarioTally2.entries.find?
          (fun e => exceedsHalf e.2 (halfOf scenarioBallots.length)) = some e →
        ∃ c, scenarioCandidates2.get e.1 = some c ∧ win' = c.name) :=
  ⟨rfl, majority_candidate_unique scenarioCandidates2 scenarioBallots scenarioBallots2
    scenarioTally2 rfl⟩

/-- The sole-candidate theorem (C11) at the candidate table in which only B is
left, with the two ballots of the tie example. -/
theorem sole_candidate_wins_witness :
    (exhaustedCandidates.keys.Nodup ∧
      exhaustedCandidates.entries.filter (fun e => !e.2.eliminated)
        = [("B", ⟨"B", "Bob", false⟩)] ∧
      tieBallots ≠ [] ∧ (∀ b ∈ tieBallots, allRegistered exhaustedCandidates b) ∧
      (∀ b ∈ tieBallots, b.h = "B" ∨ b.s = "B" ∨ b.t = "B")) ∧
    ∃ ballots' candidates',
      tallyRoundVotes tieBallots exhaustedCandidates
        = .ok (⟨[("B", tieBallots.length)]⟩, ballots') ∧
      processRoundResults ⟨[("B", tieBallots.length)]⟩ exhaustedCandidates
        (halfOf tieBallots.length) "" = .ok (candidates', "Bob") :=
  ⟨⟨by decide, by decide, by decide, by decide, by decide⟩,
    sole_candidate_wins exhaustedCandidates tieBallots "B" ⟨"B", "Bob", false⟩ ""
      (by decide) (by decide) (by decide) (by decide) (by decide)⟩

/-- The permutation theorem (C17) at the ballots of the scenario and their
reverse. -/
theorem tallyRoundVotes_perm_witness :
    scenarioBallots.Perm scenarioBallots.reverse ∧
    ((∃ e1 e2, tallyRoundVotes scenarioBallots scenarioCandidates = .error e1 ∧
        tallyRoundVotes scenarioBallots.reverse scenarioCandidates = .error e2) ∨
      (∃ t b1 b2, tallyRoundVotes scenarioBallots scenarioCandidates = .ok (t, b1) ∧
        tallyRoundVotes scenarioBallots.reverse scenarioCandidates = .ok (t, b2))) ∧
    (∀ t1 b1 t2 b2 win, tallyRoundVotes scenarioBallots scenarioCandidates = .ok (t1, b1) →
      tallyRoundVotes scenarioBallots.reverse scenarioCandidates = .ok (t2, b2) →
      processRoundResults t1 scenarioCandidates (halfOf scenarioBallots.length) win
        = processRoundResults t2 scenarioCandidates
            (halfOf scenarioBallots.reverse.length) win) :=
  ⟨(List.reverse_perm scenarioBallots).symm,
    tallyRoundVotes_perm scenarioCandidates scenarioBallots scenarioBallots.reverse
      (List.reverse_perm scenarioBallots).symm⟩

/-- The refinement theorem (C15) at round 2 of the scenario, where the third
ballot has been moved on from B to A. -/
theorem inplace_update_refines_recount_witness :
    RunState scenarioBallots scenarioBallots2 scenarioCandidates3 ∧
    tallyRoundVotes scenarioBallots2 scenarioCandidates3
        = tallyRoundVotes scenarioBallots scenarioCandidates3 ∧
    (scenarioCandidates3.keys.Nodup →
      (∀ b ∈ scenarioBallots, allRegistered scenarioCandidates3 b) →
      ((∃ e, tallyRoundVotes scenarioBallots2 scenarioCandidates3 = .error e) ↔
        ∃ b ∈ scenarioBallots, firstActive scenarioCandidates3 b = none) ∧
      (∀ t ballots', tallyRoundVotes scenarioBallots2 scenarioCandidates3 = .ok (t, ballots') →
        recountFromOriginals scenarioCandidates3 scenarioBallots = some t)) :=
  have hstate : RunState scenarioBallots scenarioBallots2 scenarioCandidates3 :=
    RunState.round
      (RunState.round (RunState.start scenarioCandidates)
        (show tallyRoundVotes scenarioBallots scenarioCandidates
          = .ok (scenarioTally1, scenarioBallots) from rfl)
        (fun k hk => by rw [isEliminated_of_fresh (by decide) k] at hk; cases hk))
      (show tallyRoundVotes scenarioBallots scenarioCandidates2
        = .ok (scenarioTally2, scenarioBallots2) from rfl)
      (fun k hk => by
        obtain ⟨c, hc, hce⟩ := (isEliminated_iff _ _).1 hk
        have hmem := HashTable.mem_of_lookup _ _ _ hc
        simp only [scenarioCandidates2, List.mem_cons, Prod.mk.injEq, List.mem_singleton,
          List.mem_nil_iff, or_false] at hmem
        rcases hmem with ⟨rfl, rfl⟩ | ⟨rfl, rfl⟩ | ⟨rfl, rfl⟩
        · cases hce
        · rfl
        · cases hce)
  ⟨hstate, inplace_update_refines_recount scenarioCandidates3 scenarioBallots scenarioBallots2
    hstate⟩

/-- The success theorem (C19) at the scenario, with room for 3 rounds. -/
theorem election_with_full_rankings_succeeds_witness :
    (scenarioCandidates.keys.Nodup ∧
      (∀ e ∈ scenarioCandidates.entries, e.2.eliminated = false) ∧
      (∀ e ∈ scenarioCandidates.entries, e.2.name ≠ "") ∧
      1 ≤ scenarioCandidates.entries.length ∧ scenarioBallots ≠ [] ∧
      (∀ b ∈ scenarioBallots, allRegistered scenarioCandidates b) ∧
      (∀ b ∈ scenarioBallots, ∀ k ∈ scenarioCandidates.keys, k = b.h ∨ k = b.s ∨ k = b.t) ∧
      scenarioCandidates.entries.length ≤ 3) ∧
    ∃ w c ts r, runElection 3 scenarioCandidates scenarioBallots = .finished w r c ts ∧
      w ≠ "" ∧ (∃ e ∈ scenarioCandidates.entries, w = e.2.name) ∧ 1 ≤ r ∧
      r ≤ scenarioCandidates.entries.length :=
  ⟨⟨by decide, by decide, by decide, by decide, by decide, by decide, by decide, by decide⟩,
    election_with_full_rankings_succeeds scenarioCandidates scenarioBallots 3 (by decide)
      (by decide) (by decide) (by decide) (by decide) (by decide) (by decide) (by decide)⟩

end DecisionHelper
